import Mathlib

/-!
Shallow embedding of the ByteSchema (bsp) serialization core, src/include/bsp.hpp.

Modelling conventions:
* a byte stream is a `List Nat`, bytes kept below 256 by construction on the
  write side (the C++ side writes `uint8_t`);
* `std::string`, `types::ByteArray` and the buffer behind `types::ByteView`
  are modelled as their byte contents, a `List Nat`;
* a decoder is a function `List Nat → Except Err (α × List Nat)` returning the
  decoded value and the unread remainder of the stream; C++ exceptions become
  `Except.error`;
* machine integers are `Nat` / `Int` with explicit reductions modulo `2 ^ w`
  at the points where the C++ code relies on fixed-width wraparound
  (`res |= (uint64_t)(b & 0x7F) << shift`, `static_cast<T>(v)`, ...);
* `std::map<K, V>` is modelled as its in-order entry list, a `List (K × V)`
  strictly sorted by key; `out.emplace(k, v)` becomes an ordered insert that
  keeps the first value for a duplicated key, as `std::map::emplace` does.
-/

set_option maxHeartbeats 1000000

namespace ByteSchema

/-- Error taxonomy of namespace bsp::error (bsp.hpp). -/
inductive Err where
  | UnexpectedEOF
  | InvalidVarint
  | LengthOverflow
  | VariantOutOfRange
  | ABIError
  deriving DecidableEq

/-- Byte order, std::endian as used by GlobalOptions. -/
inductive Endian where
  | little
  | big
  deriving DecidableEq

/-- Global options and limits (bsp::GlobalOptions); only the fields the
serializers consult are modelled.  The C++ defaults are big endian and
`1 << 20` for both size limits. -/
structure GlobalOptions where
  endian : Endian
  max_container_size : Nat
  max_string_size : Nat
  deriving DecidableEq

/-- Default-constructed GlobalOptions (the values of the in-class initializers). -/
def GlobalOptions.default : GlobalOptions :=
  { endian := .big, max_container_size := 1 <<< 20, max_string_size := 1 <<< 20 }

/-- Result of a decoder: the value and the unread rest of the stream. -/
abbrev DecodeRes (α : Type) := Except Err (α × List Nat)

/-- A serializer for one (value type, protocol tag) pair:
`Serializer<T, Protocol>::write / ::read` of bsp.hpp. -/
structure Codec (α : Type) where
  write : α → Except Err (List Nat)
  read : List Nat → DecodeRes α

/-- Prefix round-trip property of a codec: reading back what was written
consumes exactly the written bytes and returns the original value. -/
def Codec.RT (c : Codec α) : Prop :=
  ∀ a bs rest, c.write a = .ok bs → c.read (bs ++ rest) = .ok (a, rest)

/-- Reader::readBytes: consume exactly `n` bytes or fail with UnexpectedEOF
when fewer remain. -/
def readBytes (n : Nat) (bs : List Nat) : DecodeRes (List Nat) :=
  if n ≤ bs.length then .ok (bs.take n, bs.drop n) else .error .UnexpectedEOF

/-- Signed reinterpretation of an unsigned `w`-bit value
(`static_cast<T>(u)` for signed `T` of bit width `w`). -/
def toSigned (w : Nat) (n : Nat) : Int :=
  if n % 2 ^ w < 2 ^ (w - 1) then ((n % 2 ^ w : Nat) : Int)
  else ((n % 2 ^ w : Nat) : Int) - 2 ^ w

/-- Unsigned `w`-bit representation of an integer
(`static_cast<U>(v)` for unsigned `U` of bit width `w`, two's complement). -/
def toUnsigned (w : Nat) (x : Int) : Nat := (x % ((2 ^ w : Nat) : Int)).toNat

/-- Wrap an integer to a signed `w`-bit value (`static_cast<T>(x)` for
signed `T`: reduce modulo `2 ^ w`, then reinterpret). -/
def wrapSigned (w : Nat) (x : Int) : Int := toSigned w (toUnsigned w x)

/-- utils::zigzag_encode: `(uint64_t(x) << 1) ^ uint64_t(x >> 63)`.
For an int64 input the arithmetic shift `x >> 63` is `-1` when `x` is
negative and `0` otherwise. -/
def zigzag_encode (x : Int) : Nat :=
  ((toUnsigned 64 x <<< 1) % 2 ^ 64) ^^^ toUnsigned 64 (if x < 0 then -1 else 0)

/-- utils::zigzag_decode: `int64_t((v >> 1) ^ (~(v & 1) + 1))`; in uint64
arithmetic `~(v & 1) + 1` is `2^64 - (v & 1) mod 2^64`. -/
def zigzag_decode (v : Nat) : Int :=
  toSigned 64 ((v >>> 1) ^^^ ((2 ^ 64 - (v &&& 1)) % 2 ^ 64))

/-- utils::write_uleb128: emit 7 payload bits per byte, low group first,
continuation bit 0x80 on every byte but the last. -/
def write_uleb128 (v : Nat) : List Nat :=
  if 0x7F < v then ((v &&& 0x7F) ||| 0x80) :: write_uleb128 (v >>> 7) else [v]
termination_by v
decreasing_by
  rw [Nat.shiftRight_eq_div_pow]
  exact Nat.div_lt_self (by omega) (by norm_num)

/-- Loop of utils::read_uleb128, carrying the uint64 accumulator `res` and the
current `shift`; `res |= (uint64_t)(b & 0x7F) << shift` wraps modulo `2^64`,
and after `shift += 7` the loop throws InvalidVarint when `shift >= 64`. -/
def read_uleb128_loop : List Nat → Nat → Nat → Except Err (Nat × List Nat)
  | [], _, _ => .error .UnexpectedEOF
  | b :: bs, res, shift =>
    let res' := (res ||| ((b &&& 0x7F) <<< shift)) % 2 ^ 64
    if b &&& 0x80 = 0 then .ok (res', bs)
    else if 64 ≤ shift + 7 then .error .InvalidVarint
    else read_uleb128_loop bs res' (shift + 7)

/-- utils::read_uleb128. -/
def read_uleb128 (bs : List Nat) : Except Err (Nat × List Nat) :=
  read_uleb128_loop bs 0 0

/-- Serializer of bool under Fixed<>: one byte, `writeByte(v)`; the read side
converts the byte back with the C++ bool conversion (nonzero is true). -/
def BoolFixed.write (v : Bool) : Except Err (List Nat) :=
  .ok [if v then 1 else 0]

/-- Read side of Serializer of bool under Fixed<>. -/
def BoolFixed.read : List Nat → DecodeRes Bool
  | [] => .error .UnexpectedEOF
  | b :: bs => .ok (b != 0, bs)

/-- Little-endian byte emission of the unsigned Fixed<> write loop:
byte `i` is `(v >> (8*i)) & 0xFF`, here expressed by peeling the low byte. -/
def writeFixedLE : Nat → Nat → List Nat
  | 0, _ => []
  | size + 1, v => (v &&& 0xFF) :: writeFixedLE size (v >>> 8)

/-- Big-endian byte emission of the unsigned Fixed<> write loop:
byte `i` is `(v >> (8*(size-1-i))) & 0xFF`, so the low byte comes last. -/
def writeFixedBE : Nat → Nat → List Nat
  | 0, _ => []
  | size + 1, v => writeFixedBE size (v >>> 8) ++ [v &&& 0xFF]

/-- Serializer of an unsigned integer of `size` bytes under Fixed<>:
byte-by-byte in the configured byte order. -/
def UIntFixed.write (opts : GlobalOptions) (size : Nat) (v : Nat) :
    Except Err (List Nat) :=
  .ok (match opts.endian with
    | .little => writeFixedLE size v
    | .big => writeFixedBE size v)

/-- Read side of the unsigned Fixed<> serializer: `size` bytes assembled with
`x |= T(b) << (8*i)` (little) or `x |= T(b) << (8*(size-1-i))` (big); the
folds below compute exactly those sums of disjoint shifted bytes. -/
def UIntFixed.read (opts : GlobalOptions) (size : Nat) (bs : List Nat) :
    DecodeRes Nat :=
  match readBytes size bs with
  | .error e => .error e
  | .ok (bytes, rest) =>
    .ok (match opts.endian with
      | .little => bytes.foldr (fun b x => b ||| (x <<< 8)) 0
      | .big => bytes.foldl (fun x b => (x <<< 8) ||| b) 0, rest)

/-- Serializer of a signed integer of `size` bytes under Fixed<>: cast to the
unsigned type of equal width and delegate. -/
def IntFixed.write (opts : GlobalOptions) (size : Nat) (x : Int) :
    Except Err (List Nat) :=
  UIntFixed.write opts size (toUnsigned (8 * size) x)

/-- Read side of the signed Fixed<> serializer: read unsigned, cast back. -/
def IntFixed.read (opts : GlobalOptions) (size : Nat) (bs : List Nat) :
    DecodeRes Int :=
  match UIntFixed.read opts size bs with
  | .error e => .error e
  | .ok (u, rest) => .ok (toSigned (8 * size) u, rest)

/-- Serializer of a floating-point value of `size` bytes under Fixed<>:
a raw memcpy of the object representation, which is what the value is
modelled as here. -/
def FloatFixed.write (rep : List Nat) : Except Err (List Nat) :=
  .ok rep

/-- Read side of the floating-point Fixed<> serializer: memcpy `size` bytes
back out of the stream. -/
def FloatFixed.read (size : Nat) (bs : List Nat) : DecodeRes (List Nat) :=
  readBytes size bs

/-- Serializer of an unsigned integer under Varint:
`write_uleb128(w, static_cast<uint64_t>(v))`. -/
def UIntVarint.write (v : Nat) : Except Err (List Nat) :=
  .ok (write_uleb128 v)

/-- Read side of the unsigned Varint serializer for a `w`-bit target type:
`out = static_cast<T>(read_uleb128(r))`, a reduction modulo `2 ^ w`. -/
def UIntVarint.read (w : Nat) (bs : List Nat) : DecodeRes Nat :=
  match read_uleb128 bs with
  | .error e => .error e
  | .ok (v, rest) => .ok (v % 2 ^ w, rest)

/-- Serializer of a signed integer under Varint: ZigZag then ULEB128. -/
def IntVarint.write (x : Int) : Except Err (List Nat) :=
  .ok (write_uleb128 (zigzag_encode x))

/-- Read side of the signed Varint serializer for a `w`-bit target type:
`out = static_cast<T>(zigzag_decode(read_uleb128(r)))`. -/
def IntVarint.read (w : Nat) (bs : List Nat) : DecodeRes Int :=
  match read_uleb128 bs with
  | .error e => .error e
  | .ok (z, rest) => .ok (wrapSigned w (zigzag_decode z), rest)

/-- Serializer of std::string under Varint: ULEB128 length then raw bytes. -/
def StringVarint.write (s : List Nat) : Except Err (List Nat) :=
  .ok (write_uleb128 s.length ++ s)

/-- Read side of std::string under Varint: read the length, reject it against
max_string_size before resizing, then read that many bytes. -/
def StringVarint.read (opts : GlobalOptions) (bs : List Nat) :
    DecodeRes (List Nat) :=
  match read_uleb128 bs with
  | .error e => .error e
  | .ok (len, bs1) =>
    if opts.max_string_size < len then .error .LengthOverflow
    else readBytes len bs1

/-- Serializer of std::string under Fixed<N>: write `min(s.size(), N)` bytes
of the string, then zero padding up to exactly `N` bytes. -/
def StringFixed.write (N : Nat) (s : List Nat) : Except Err (List Nat) :=
  .ok (s.take N ++ List.replicate (N - s.length) 0)

/-- Read side of std::string under Fixed<N>: exactly `N` bytes. -/
def StringFixed.read (N : Nat) (bs : List Nat) : DecodeRes (List Nat) :=
  readBytes N bs

/-- Serializer of types::ByteArray under Varint: ULEB128 length then raw bytes. -/
def ByteArrayVarint.write (v : List Nat) : Except Err (List Nat) :=
  .ok (write_uleb128 v.length ++ v)

/-- Read side of types::ByteArray under Varint: length, limit check against
max_string_size, then the bytes. -/
def ByteArrayVarint.read (opts : GlobalOptions) (bs : List Nat) :
    DecodeRes (List Nat) :=
  match read_uleb128 bs with
  | .error e => .error e
  | .ok (len, bs1) =>
    if opts.max_string_size < len then .error .LengthOverflow
    else readBytes len bs1

/-- Serializer of types::ByteArray under Fixed<N>: the write side throws
LengthOverflow unless the array has exactly `N` bytes, then writes them raw. -/
def ByteArrayFixed.write (N : Nat) (v : List Nat) : Except Err (List Nat) :=
  if v.length ≠ N then .error .LengthOverflow else .ok v

/-- Read side of types::ByteArray under Fixed<N>: exactly `N` bytes. -/
def ByteArrayFixed.read (N : Nat) (bs : List Nat) : DecodeRes (List Nat) :=
  readBytes N bs

/-- Serializer of types::ByteView under Varint: ULEB128 size then the viewed
bytes; the view is modelled by the byte contents of its buffer. -/
def ByteViewVarint.write (v : List Nat) : Except Err (List Nat) :=
  .ok (write_uleb128 v.length ++ v)

/-- Read side of types::ByteView under Varint: length, limit check against
max_string_size, then a freshly allocated buffer of that many bytes. -/
def ByteViewVarint.read (opts : GlobalOptions) (bs : List Nat) :
    DecodeRes (List Nat) :=
  match read_uleb128 bs with
  | .error e => .error e
  | .ok (len, bs1) =>
    if opts.max_string_size < len then .error .LengthOverflow
    else readBytes len bs1

/-- Element loop of the container write sides: each element is written with
its own serializer, outputs concatenated in order. -/
def writeElems (wf : α → Except Err (List Nat)) : List α → Except Err (List Nat)
  | [] => .ok []
  | a :: as =>
    match wf a with
    | .error e => .error e
    | .ok b =>
      match writeElems wf as with
      | .error e => .error e
      | .ok bsRest => .ok (b ++ bsRest)

/-- Element loop of the container read sides: read `n` elements in order. -/
def readElems (rf : List Nat → DecodeRes α) : Nat → List Nat → DecodeRes (List α)
  | 0, bs => .ok ([], bs)
  | n + 1, bs =>
    match rf bs with
    | .error e => .error e
    | .ok (a, bs1) =>
      match readElems rf n bs1 with
      | .error e => .error e
      | .ok (as, bs2) => .ok (a :: as, bs2)

/-- Serializer of std::vector under Varint: ULEB128 element count, then each
element under the element type's default-resolved protocol (the element
codec `c`). -/
def VecVarint.write (c : Codec α) (l : List α) : Except Err (List Nat) :=
  match writeElems c.write l with
  | .ok body => .ok (write_uleb128 l.length ++ body)
  | .error e => .error e

/-- Read side of std::vector under Varint: count, limit check against
max_container_size before reserving, then the elements. -/
def VecVarint.read (opts : GlobalOptions) (c : Codec α) (bs : List Nat) :
    DecodeRes (List α) :=
  match read_uleb128 bs with
  | .error e => .error e
  | .ok (len, bs1) =>
    if opts.max_container_size < len then .error .LengthOverflow
    else readElems c.read len bs1

/-- Serializer of std::vector under Fixed<N>: no count prefix; the write side
throws LengthOverflow unless the vector has exactly `N` elements. -/
def VecFixed.write (N : Nat) (c : Codec α) (l : List α) :
    Except Err (List Nat) :=
  if l.length ≠ N then .error .LengthOverflow else writeElems c.write l

/-- Read side of std::vector under Fixed<N>: always exactly `N` elements. -/
def VecFixed.read (N : Nat) (c : Codec α) (bs : List Nat) : DecodeRes (List α) :=
  readElems c.read N bs

/-- Pair loop of the map write sides: for each entry the key then the value,
each under its own default-resolved protocol. -/
def writePairs (ck : Codec κ) (cv : Codec ν) : List (κ × ν) → Except Err (List Nat)
  | [] => .ok []
  | (k, v) :: rest =>
    match ck.write k with
    | .error e => .error e
    | .ok bk =>
      match cv.write v with
      | .error e => .error e
      | .ok bv =>
        match writePairs ck cv rest with
        | .error e => .error e
        | .ok bsRest => .ok (bk ++ bv ++ bsRest)

/-- std::map::emplace on the sorted entry-list model: ordered insert that
does nothing when the key is already present. -/
def emplace [LinearOrder κ] : List (κ × ν) → κ → ν → List (κ × ν)
  | [], k, v => [(k, v)]
  | (k0, v0) :: rest, k, v =>
    if k < k0 then (k, v) :: (k0, v0) :: rest
    else if k0 < k then (k0, v0) :: emplace rest k v
    else (k0, v0) :: rest

/-- Pair loop of the map read sides: read `n` entries, key then value, and
emplace each into the output map (initially cleared). -/
def readPairsInto [LinearOrder κ] (ck : Codec κ) (cv : Codec ν) :
    Nat → List (κ × ν) → List Nat → DecodeRes (List (κ × ν))
  | 0, acc, bs => .ok (acc, bs)
  | n + 1, acc, bs =>
    match ck.read bs with
    | .error e => .error e
    | .ok (k, bs1) =>
      match cv.read bs1 with
      | .error e => .error e
      | .ok (v, bs2) => readPairsInto ck cv n (emplace acc k v) bs2

/-- Serializer of std::map under Varint: ULEB128 entry count, then the
entries in key order, each key then value. -/
def MapVarint.write [LinearOrder κ] (ck : Codec κ) (cv : Codec ν)
    (m : List (κ × ν)) : Except Err (List Nat) :=
  match writePairs ck cv m with
  | .ok body => .ok (write_uleb128 m.length ++ body)
  | .error e => .error e

/-- Read side of std::map under Varint: count, limit check against
max_container_size, clear, then emplace the decoded entries. -/
def MapVarint.read [LinearOrder κ] (opts : GlobalOptions) (ck : Codec κ)
    (cv : Codec ν) (bs : List Nat) : DecodeRes (List (κ × ν)) :=
  match read_uleb128 bs with
  | .error e => .error e
  | .ok (len, bs1) =>
    if opts.max_container_size < len then .error .LengthOverflow
    else readPairsInto ck cv len [] bs1

/-- Serializer of std::map under Fixed<N>: no count prefix; the write side
throws LengthOverflow unless the map has exactly `N` entries. -/
def MapFixed.write [LinearOrder κ] (N : Nat) (ck : Codec κ) (cv : Codec ν)
    (m : List (κ × ν)) : Except Err (List Nat) :=
  if m.length ≠ N then .error .LengthOverflow else writePairs ck cv m

/-- Read side of std::map under Fixed<N>: clear, then exactly `N` entries. -/
def MapFixed.read [LinearOrder κ] (N : Nat) (ck : Codec κ) (cv : Codec ν)
    (bs : List Nat) : DecodeRes (List (κ × ν)) :=
  readPairsInto ck cv N [] bs

/-- Sequential composition of two codecs: the elementwise std::apply of both
Serializer<std::tuple<Ts...>, Fixed<>> (each element under its
default-resolved protocol) and Serializer<T, Schema> (each field under its
field descriptor's protocol); an n-component tuple or record is the nested
product of its components. -/
def seqWrite (ca : Codec α) (cb : Codec β) (v : α × β) : Except Err (List Nat) :=
  match ca.write v.1 with
  | .error e => .error e
  | .ok b1 =>
    match cb.write v.2 with
    | .error e => .error e
    | .ok b2 => .ok (b1 ++ b2)

/-- Read side of the sequential composition: components in declared order. -/
def seqRead (ca : Codec α) (cb : Codec β) (bs : List Nat) : DecodeRes (α × β) :=
  match ca.read bs with
  | .error e => .error e
  | .ok (a, bs1) =>
    match cb.read bs1 with
    | .error e => .error e
    | .ok (b, bs2) => .ok ((a, b), bs2)

/-- Sequential composition packaged as a codec. -/
def seqCodec (ca : Codec α) (cb : Codec β) : Codec (α × β) :=
  ⟨seqWrite ca cb, seqRead ca cb⟩

/-- types::Option: presence flag plus a value field that is only meaningful
when the flag is set. -/
structure Opt (α : Type) where
  has_value : Bool
  value : α
  deriving DecidableEq

/-- Serializer of types::Option under Varint: ULEB128 presence flag (1 or 0),
then the payload under its default-resolved protocol when present. -/
def OptionVarint.write (c : Codec α) (o : Opt α) : Except Err (List Nat) :=
  if o.has_value then
    match c.write o.value with
    | .ok b => .ok (write_uleb128 1 ++ b)
    | .error e => .error e
  else .ok (write_uleb128 0)

/-- Read side of types::Option under Varint, decoding into the existing
output object `init`: a zero flag only clears has_value and leaves the value
field untouched; any nonzero flag reads the payload. -/
def OptionVarint.read (c : Codec α) (init : Opt α) (bs : List Nat) :
    DecodeRes (Opt α) :=
  match read_uleb128 bs with
  | .error e => .error e
  | .ok (flag, bs1) =>
    if flag = 0 then .ok ({ init with has_value := false }, bs1)
    else
      match c.read bs1 with
      | .error e => .error e
      | .ok (v, bs2) => .ok (⟨true, v⟩, bs2)

/-- Serializer of std::variant<Ts...> under Varint: ULEB128 discriminant,
the zero-based index of the active alternative, then the payload under that
alternative's default-resolved protocol.  The variant value is the dependent
pair of the active index and the payload. -/
def VariantVarint.write {k : Nat} {T : Fin k → Type} (C : ∀ i, Codec (T i))
    (v : Σ i, T i) : Except Err (List Nat) :=
  match (C v.1).write v.2 with
  | .ok b => .ok (write_uleb128 v.1.val ++ b)
  | .error e => .error e

/-- Read side of std::variant<Ts...> under Varint: an index at or past the
alternative count throws VariantOutOfRange, otherwise the matching
alternative's payload is decoded. -/
def VariantVarint.read {k : Nat} {T : Fin k → Type} (C : ∀ i, Codec (T i))
    (bs : List Nat) : DecodeRes (Σ i, T i) :=
  match read_uleb128 bs with
  | .error e => .error e
  | .ok (idx, bs1) =>
    if h : idx < k then
      match (C ⟨idx, h⟩).read bs1 with
      | .error e => .error e
      | .ok (val, bs2) => .ok (⟨⟨idx, h⟩, val⟩, bs2)
    else .error .VariantOutOfRange

/-- types::PVal<T, Protocol>: a value box carrying a protocol tag. -/
structure PVal (α : Type) where
  value : α
  deriving DecidableEq

/-- Serializer of types::PVal: delegates to the inner type's serializer under
the protocol the box resolves to (its carried tag, by DefaultProtocol of
PVal); `c` is that inner codec. -/
def PValCodec (c : Codec α) : Codec (PVal α) :=
  ⟨fun v => c.write v.value,
   fun bs =>
     match c.read bs with
     | .error e => .error e
     | .ok (v, rest) => .ok (⟨v⟩, rest)⟩

/-- Key order invariant of the std::map model: entries strictly sorted. -/
def SortedKeys [LinearOrder κ] (m : List (κ × ν)) : Prop :=
  m.Pairwise fun p q => p.1 < q.1

/-- Serializer of bool packaged as a codec value, as used when bool is a
container element (its default-resolved protocol is Fixed<>). -/
def boolCodec : Codec Bool :=
  ⟨BoolFixed.write, BoolFixed.read⟩

/-! Helper lemmas: bit manipulation. -/

theorem lor_shiftLeft_eq_add {res : Nat} (p s : Nat) (h : res < 2 ^ s) :
    res ||| (p <<< s) = p * 2 ^ s + res := by
  rw [Nat.shiftLeft_eq, Nat.lor_comm, mul_comm p (2 ^ s), ← Nat.mul_add_lt_is_or h p]

theorem and_127_eq (x : Nat) : x &&& 127 = x % 128 := by
  have h := Nat.and_pow_two_sub_one_eq_mod x 7
  norm_num at h
  exact h

theorem and_255_eq (x : Nat) : x &&& 255 = x % 256 := by
  have h := Nat.and_pow_two_sub_one_eq_mod x 8
  norm_num at h
  exact h

theorem and_two_pow_eq_zero {x n : Nat} (h : x < 2 ^ n) : x &&& 2 ^ n = 0 := by
  apply Nat.eq_of_testBit_eq
  intro i
  simp only [Nat.testBit_and, Nat.zero_testBit, Nat.testBit_two_pow]
  rcases eq_or_ne n i with rfl | hne
  · simp [Nat.testBit_lt_two_pow h]
  · simp [hne]

theorem and_128_eq_zero {x : Nat} (h : x < 128) : x &&& 128 = 0 := by
  have : x < 2 ^ 7 := by norm_num; omega
  have h2 := and_two_pow_eq_zero this
  norm_num at h2
  exact h2

theorem lor_128_and_128_ne_zero (a : Nat) : (a ||| 128) &&& 128 ≠ 0 := by
  intro h
  have htb := congrArg (fun n => n.testBit 7) h
  have h128 : (128 : Nat) = 2 ^ 7 := by norm_num
  simp only [h128, Nat.testBit_and, Nat.testBit_lor, Nat.testBit_two_pow_self,
    Nat.zero_testBit, Bool.or_true, Bool.and_self] at htb
  exact Bool.noConfusion htb

theorem lor_128_and_127 (a : Nat) : (a &&& 127 ||| 128) &&& 127 = a &&& 127 := by
  rw [Nat.and_distrib_right, Nat.and_assoc]
  have h1 : (127 : Nat) &&& 127 = 127 := by decide
  have h2 : (128 : Nat) &&& 127 = 0 := by decide
  rw [h1, h2, Nat.or_zero]

/-! Helper lemmas: ULEB128. -/

theorem write_uleb128_small {v : Nat} (h : v ≤ 127) : write_uleb128 v = [v] := by
  rw [write_uleb128, if_neg (by omega)]

theorem write_uleb128_big {v : Nat} (h : 127 < v) :
    write_uleb128 v = ((v &&& 0x7F) ||| 0x80) :: write_uleb128 (v >>> 7) := by
  rw [write_uleb128]
  exact if_pos h

theorem write_uleb128_length_pos (v : Nat) : 0 < (write_uleb128 v).length := by
  rcases le_or_lt v 127 with h | h
  · rw [write_uleb128_small h]; simp
  · rw [write_uleb128_big h]; simp

theorem write_uleb128_length_le :
    ∀ k v : Nat, 1 ≤ k → v < 2 ^ (7 * k) → (write_uleb128 v).length ≤ k := by
  intro k
  induction k with
  | zero => omega
  | succ k ih =>
    intro v _ hv
    rcases le_or_lt v 127 with h | h
    · rw [write_uleb128_small h]; simp
    · rw [write_uleb128_big h]
      have hk : 1 ≤ k := by
        by_contra hk
        have : k = 0 := by omega
        subst this
        norm_num at hv
        omega
      have hlt : v >>> 7 < 2 ^ (7 * k) := by
        rw [Nat.shiftRight_eq_div_pow]
        have : v < 2 ^ (7 * k) * 2 ^ 7 := by
          rw [← pow_add]
          have : 7 * k + 7 = 7 * (k + 1) := by ring
          rw [this]
          exact hv
        norm_num at this ⊢
        omega
      have := ih (v >>> 7) hk hlt
      simpa using this

theorem read_uleb128_loop_write (v : Nat) :
    ∀ s res rest, res < 2 ^ s → s + 7 * ((write_uleb128 v).length - 1) ≤ 63 →
      read_uleb128_loop (write_uleb128 v ++ rest) res s =
        .ok ((res + v * 2 ^ s) % 2 ^ 64, rest) := by
  induction v using Nat.strong_induction_on with
  | _ v ih =>
    intro s res rest hres hcond
    rcases le_or_lt v 127 with h | h
    · rw [write_uleb128_small h]
      simp only [List.cons_append, List.nil_append, read_uleb128_loop]
      rw [if_pos (and_128_eq_zero (by omega))]
      have hv128 : v % 128 = v := Nat.mod_eq_of_lt (by omega)
      rw [and_127_eq, hv128, lor_shiftLeft_eq_add v s hres,
        Nat.add_comm (v * 2 ^ s) res]
      rfl
    · rw [write_uleb128_big h]
      have hlen : (write_uleb128 v).length =
          (write_uleb128 (v >>> 7)).length + 1 := by
        rw [write_uleb128_big h]; simp
      simp only [List.cons_append, read_uleb128_loop]
      rw [if_neg (lor_128_and_128_ne_zero _), lor_128_and_127]
      have hrecpos := write_uleb128_length_pos (v >>> 7)
      have hs7 : s + 7 ≤ 63 := by omega
      rw [if_neg (by omega)]
      have hand : v &&& 127 ≤ 127 := Nat.and_le_right
      have hpow : (2 : Nat) ^ (s + 7) = 2 ^ s * 128 := by
        rw [pow_add]; norm_num
      have hlt : res ||| ((v &&& 127) <<< s) < 2 ^ (s + 7) := by
        rw [lor_shiftLeft_eq_add _ s hres, hpow]
        have : (v &&& 127) * 2 ^ s ≤ 127 * 2 ^ s :=
          Nat.mul_le_mul_right _ hand
        have hp : 0 < (2 : Nat) ^ s := Nat.pos_pow_of_pos s (by omega)
        nlinarith
      have hmod : (res ||| ((v &&& 127) <<< s)) % 2 ^ 64 =
          res ||| ((v &&& 127) <<< s) := by
        apply Nat.mod_eq_of_lt
        calc res ||| ((v &&& 127) <<< s) < 2 ^ (s + 7) := hlt
          _ ≤ 2 ^ 64 := Nat.pow_le_pow_right (by omega) (by omega)
      rw [hmod]
      have hvshift : v >>> 7 < v := by
        rw [Nat.shiftRight_eq_div_pow]
        exact Nat.div_lt_self (by omega) (by norm_num)
      simp only [List.append_eq]
      rw [ih (v >>> 7) hvshift (s + 7) _ rest hlt (by omega)]
      have key : (res ||| (v &&& 127) <<< s) + v >>> 7 * 2 ^ (s + 7) =
          res + v * 2 ^ s := by
        rw [lor_shiftLeft_eq_add _ s hres, and_127_eq, Nat.shiftRight_eq_div_pow]
        have h128 : (2 : Nat) ^ 7 = 128 := by norm_num
        rw [h128, hpow]
        calc v % 128 * 2 ^ s + res + v / 128 * (2 ^ s * 128)
            = res + (v % 128 + 128 * (v / 128)) * 2 ^ s := by ring
          _ = res + v * 2 ^ s := by rw [Nat.mod_add_div]
      rw [key]

theorem read_uleb128_write {v : Nat} (hv : v < 2 ^ 64) (rest : List Nat) :
    read_uleb128 (write_uleb128 v ++ rest) = .ok (v, rest) := by
  unfold read_uleb128
  have hlen : (write_uleb128 v).length ≤ 10 :=
    write_uleb128_length_le 10 v (by omega)
      (lt_of_lt_of_le hv (Nat.pow_le_pow_right (by omega) (by norm_num)))
  rw [read_uleb128_loop_write v 0 0 rest (by norm_num) (by omega)]
  simp only [pow_zero, Nat.mul_one, Nat.zero_add]
  rw [Nat.mod_eq_of_lt hv]

theorem read_uleb128_loop_invalid :
    ∀ (bs : List Nat) (res s : Nat), s < 64 →
      (read_uleb128_loop bs res s = .error .InvalidVarint ↔
        (70 - s) / 7 ≤ bs.length ∧
          ∀ b ∈ bs.take ((70 - s) / 7), b &&& 0x80 ≠ 0) := by
  intro bs
  induction bs with
  | nil =>
    intro res s hs
    simp only [read_uleb128_loop, List.length_nil, List.take_nil,
      List.not_mem_nil, false_implies, implies_true, and_true]
    constructor
    · intro h
      exact absurd h (by simp)
    · intro h
      omega
  | cons b bs ih =>
    intro res s hs
    simp only [read_uleb128_loop]
    by_cases hb : b &&& 128 = 0
    · rw [if_pos hb]
      constructor
      · intro h
        exact absurd h (by simp)
      · intro ⟨hlen, hall⟩
        have hc : 1 ≤ (70 - s) / 7 := by omega
        have hmem : b ∈ (b :: bs).take ((70 - s) / 7) := by
          rcases Nat.exists_eq_add_of_le hc with ⟨c, hc'⟩
          rw [show (70 - s) / 7 = c + 1 by omega, List.take_succ_cons]
          exact List.mem_cons_self b _
        exact absurd hb (hall b hmem)
    · rw [if_neg hb]
      by_cases hguard : 64 ≤ s + 7
      · rw [if_pos hguard]
        have hc : (70 - s) / 7 = 1 := by omega
        simp only [hc, List.take_succ_cons, List.take_zero, List.length_cons,
          List.mem_cons]
        constructor
        · intro _
          refine ⟨by omega, ?_⟩
          intro x hx
          rcases hx with rfl | hx
          · exact hb
          · exact absurd hx (List.not_mem_nil x)
        · intro _
          trivial
      · rw [if_neg hguard]
        have hrec := ih ((res ||| ((b &&& 127) <<< s)) % 2 ^ 64) (s + 7)
          (by omega)
        rw [hrec]
        have hc : (70 - s) / 7 = (70 - (s + 7)) / 7 + 1 := by omega
        rw [hc, List.take_succ_cons]
        simp only [List.length_cons, List.mem_cons]
        constructor
        · intro ⟨hlen, hall⟩
          refine ⟨by omega, ?_⟩
          intro x hx
          rcases hx with rfl | hx
          · exact hb
          · exact hall x hx
        · intro ⟨hlen, hall⟩
          refine ⟨by omega, ?_⟩
          intro x hx
          exact hall x (Or.inr hx)

theorem read_uleb128_invalid (bs : List Nat) :
    read_uleb128 bs = .error .InvalidVarint ↔
      10 ≤ bs.length ∧ ∀ b ∈ bs.take 10, b &&& 0x80 ≠ 0 := by
  have h := read_uleb128_loop_invalid bs 0 0 (by omega)
  norm_num at h
  exact h

/-! Helper lemmas: ZigZag. -/

theorem xor_two_pow_sub_one :
    ∀ (w n : Nat), n < 2 ^ w → n ^^^ (2 ^ w - 1) = 2 ^ w - 1 - n := by
  intro w
  induction w with
  | zero =>
    intro n hn
    interval_cases n
    decide
  | succ w ih =>
    intro n hn
    have hdiv : (n ^^^ (2 ^ (w + 1) - 1)) / 2 = n / 2 ^^^ (2 ^ (w + 1) - 1) / 2 :=
      Nat.xor_div_two
    have hmod : (n ^^^ (2 ^ (w + 1) - 1)) % 2 = (n + (2 ^ (w + 1) - 1)) % 2 :=
      Nat.xor_mod_two_eq
    have hhalf : (2 ^ (w + 1) - 1) / 2 = 2 ^ w - 1 := by
      have : (2 : Nat) ^ (w + 1) = 2 * 2 ^ w := by
        rw [pow_succ]; ring
      omega
    have hih := ih (n / 2) (by
      have : (2 : Nat) ^ (w + 1) = 2 * 2 ^ w := by rw [pow_succ]; ring
      omega)
    have hodd : (2 ^ (w + 1) - 1) % 2 = 1 := by
      have : (2 : Nat) ^ (w + 1) = 2 * 2 ^ w := by rw [pow_succ]; ring
      have hp : 0 < (2 : Nat) ^ w := Nat.pos_pow_of_pos w (by omega)
      omega
    have hexp : (2 : Nat) ^ (w + 1) = 2 * 2 ^ w := by rw [pow_succ]; ring
    have hp : 0 < (2 : Nat) ^ w := Nat.pos_pow_of_pos w (by omega)
    calc n ^^^ (2 ^ (w + 1) - 1)
        = 2 * ((n ^^^ (2 ^ (w + 1) - 1)) / 2) + (n ^^^ (2 ^ (w + 1) - 1)) % 2 := by
          omega
      _ = 2 * (n / 2 ^^^ (2 ^ w - 1)) + (n + (2 ^ (w + 1) - 1)) % 2 := by
          rw [hdiv, hhalf, hmod]
      _ = 2 * (2 ^ w - 1 - n / 2) + (n + (2 ^ (w + 1) - 1)) % 2 := by rw [hih]
      _ = 2 ^ (w + 1) - 1 - n := by omega

theorem zigzag_encode_nonneg (x : Int) (hpos : 0 ≤ x) (hhi : x < 2 ^ 63) :
    zigzag_encode x = 2 * x.toNat := by
  unfold zigzag_encode toUnsigned
  rw [if_neg (by omega)]
  have hx : x % ((2 ^ 64 : Nat) : Int) = x := by push_cast; omega
  have h0 : (0 : Int) % ((2 ^ 64 : Nat) : Int) = 0 := by norm_num
  rw [hx, h0]
  have hmod : (x.toNat <<< 1) % 2 ^ 64 = 2 * x.toNat := by
    rw [Nat.shiftLeft_eq]
    have : x.toNat * 2 ^ 1 = 2 * x.toNat := by ring
    rw [this]
    exact Nat.mod_eq_of_lt (by omega)
  rw [hmod]
  norm_num

theorem zigzag_encode_neg (x : Int) (hneg : x < 0) (hlo : -(2 ^ 63) ≤ x) :
    zigzag_encode x = 2 * (-x).toNat - 1 := by
  unfold zigzag_encode toUnsigned
  rw [if_pos hneg]
  set a := (-x).toNat with hadef
  have haa : 1 ≤ a ∧ a ≤ 2 ^ 63 := by omega
  have hx : (x % ((2 ^ 64 : Nat) : Int)).toNat = 2 ^ 64 - a := by
    have hmod : x % ((2 ^ 64 : Nat) : Int) = x + 2 ^ 64 := by push_cast; omega
    rw [hmod]
    omega
  have hm1 : ((-1 : Int) % ((2 ^ 64 : Nat) : Int)).toNat = 2 ^ 64 - 1 := by
    norm_num
    rfl
  rw [hx, hm1]
  have hmod : ((2 ^ 64 - a) <<< 1) % 2 ^ 64 = 2 ^ 64 - 2 * a := by
    rw [Nat.shiftLeft_eq]
    have h1 : (2 ^ 64 - a) * 2 ^ 1 = 2 ^ 64 + (2 ^ 64 - 2 * a) := by omega
    rw [h1, Nat.add_mod_left, Nat.mod_eq_of_lt (by omega)]
  rw [hmod, xor_two_pow_sub_one 64 _ (by omega)]
  omega

theorem zigzag_decode_even (m : Nat) (hm : m < 2 ^ 63) :
    zigzag_decode (2 * m) = (m : Int) := by
  unfold zigzag_decode toSigned
  have heven : (2 * m) &&& 1 = 0 := by rw [Nat.and_one_is_mod]; omega
  have hshr : (2 * m) >>> 1 = m := by rw [Nat.shiftRight_eq_div_pow]; omega
  rw [heven, hshr]
  have hz : ((2 : Nat) ^ 64 - 0) % 2 ^ 64 = 0 := by omega
  rw [hz, Nat.xor_zero]
  have hm64 : m % 2 ^ 64 = m := Nat.mod_eq_of_lt (by omega)
  rw [hm64, if_pos (show m < 2 ^ (64 - 1) by omega)]

theorem zigzag_decode_odd (a : Nat) (ha : 1 ≤ a) (ha2 : a ≤ 2 ^ 63) :
    zigzag_decode (2 * a - 1) = -(a : Int) := by
  unfold zigzag_decode toSigned
  have hodd : (2 * a - 1) &&& 1 = 1 := by rw [Nat.and_one_is_mod]; omega
  have hshr : (2 * a - 1) >>> 1 = a - 1 := by
    rw [Nat.shiftRight_eq_div_pow]; omega
  rw [hodd, hshr]
  have hmask : ((2 : Nat) ^ 64 - 1) % 2 ^ 64 = 2 ^ 64 - 1 :=
    Nat.mod_eq_of_lt (by omega)
  rw [hmask, xor_two_pow_sub_one 64 _ (by omega)]
  have harg : (2 : Nat) ^ 64 - 1 - (a - 1) = 2 ^ 64 - a := by omega
  rw [harg]
  have hm64 : (2 ^ 64 - a) % 2 ^ 64 = 2 ^ 64 - a := Nat.mod_eq_of_lt (by omega)
  rw [hm64, if_neg (show ¬(2 ^ 64 - a < 2 ^ (64 - 1)) by omega)]
  omega

theorem zigzag_roundtrip (x : Int) (hlo : -(2 ^ 63) ≤ x) (hhi : x < 2 ^ 63) :
    zigzag_decode (zigzag_encode x) = x := by
  rcases le_or_lt 0 x with hpos | hneg
  · rw [zigzag_encode_nonneg x hpos hhi, zigzag_decode_even _ (by omega)]
    omega
  · rw [zigzag_encode_neg x hneg hlo]
    have h1 : 1 ≤ (-x).toNat := by omega
    have h2 : (-x).toNat ≤ 2 ^ 63 := by omega
    rw [zigzag_decode_odd _ h1 h2]
    omega

/-! Helper lemmas: readBytes and fixed-width integers. -/

theorem readBytes_append (l rest : List Nat) :
    readBytes l.length (l ++ rest) = .ok (l, rest) := by
  unfold readBytes
  rw [if_pos (by simp)]
  rw [List.take_left, List.drop_left]

theorem readBytes_append' {n : Nat} (l rest : List Nat) (h : l.length = n) :
    readBytes n (l ++ rest) = .ok (l, rest) := by
  subst h
  exact readBytes_append l rest

theorem writeFixedLE_length (size : Nat) : ∀ v, (writeFixedLE size v).length = size := by
  induction size with
  | zero => intro v; rfl
  | succ s ih => intro v; simp [writeFixedLE, ih]

theorem writeFixedBE_length (size : Nat) : ∀ v, (writeFixedBE size v).length = size := by
  induction size with
  | zero => intro v; rfl
  | succ s ih => intro v; simp [writeFixedBE, ih]

theorem writeFixedLE_foldr (size : Nat) :
    ∀ v, (writeFixedLE size v).foldr (fun b x => b ||| (x <<< 8)) 0 =
      v % 2 ^ (8 * size) := by
  induction size with
  | zero => intro v; simp [writeFixedLE]; omega
  | succ s ih =>
    intro v
    simp only [writeFixedLE, List.foldr_cons, ih]
    rw [and_255_eq, Nat.shiftRight_eq_div_pow]
    have h256 : (2 : Nat) ^ 8 = 256 := by norm_num
    rw [h256]
    have hlt : v % 256 < 2 ^ 8 := by omega
    rw [lor_shiftLeft_eq_add _ 8 hlt, h256]
    have hpow : (2 : Nat) ^ (8 * (s + 1)) = 256 * 2 ^ (8 * s) := by
      have : 8 * (s + 1) = 8 + 8 * s := by ring
      rw [this, pow_add]
      norm_num
    rw [hpow, Nat.mod_mul]
    ring

theorem writeFixedBE_foldl (size : Nat) :
    ∀ v, (writeFixedBE size v).foldl (fun x b => (x <<< 8) ||| b) 0 =
      v % 2 ^ (8 * size) := by
  induction size with
  | zero => intro v; simp [writeFixedBE]; omega
  | succ s ih =>
    intro v
    simp only [writeFixedBE, List.foldl_append, List.foldl_cons, List.foldl_nil, ih]
    rw [and_255_eq, Nat.shiftRight_eq_div_pow]
    have h256 : (2 : Nat) ^ 8 = 256 := by norm_num
    rw [h256]
    have hlt : v % 256 < 2 ^ 8 := by omega
    rw [Nat.lor_comm, lor_shiftLeft_eq_add _ 8 hlt, h256]
    have hpow : (2 : Nat) ^ (8 * (s + 1)) = 256 * 2 ^ (8 * s) := by
      have : 8 * (s + 1) = 8 + 8 * s := by ring
      rw [this, pow_add]
      norm_num
    rw [hpow, Nat.mod_mul]
    ring

theorem UIntFixed_rt (opts : GlobalOptions) (size v : Nat)
    (hv : v < 2 ^ (8 * size)) (rest : List Nat) :
    UIntFixed.read opts size
        ((match UIntFixed.write opts size v with
          | .ok bs => bs
          | .error _ => []) ++ rest) = .ok (v, rest) := by
  unfold UIntFixed.write UIntFixed.read
  cases h : opts.endian with
  | little =>
    simp only
    rw [readBytes_append' _ rest (writeFixedLE_length size v)]
    simp only [writeFixedLE_foldr, Nat.mod_eq_of_lt hv]
  | big =>
    simp only
    rw [readBytes_append' _ rest (writeFixedBE_length size v)]
    simp only [writeFixedBE_foldl, Nat.mod_eq_of_lt hv]

theorem toUnsigned_lt (w : Nat) (x : Int) : toUnsigned w x < 2 ^ w := by
  unfold toUnsigned
  have h1 : 0 ≤ x % ((2 ^ w : Nat) : Int) := by
    apply Int.emod_nonneg
    positivity
  have h2 : x % ((2 ^ w : Nat) : Int) < ((2 ^ w : Nat) : Int) := by
    apply Int.emod_lt_of_pos
    positivity
  omega

theorem toSigned_toUnsigned (w : Nat) (hw : 0 < w) (x : Int)
    (hlo : -(2 ^ (w - 1)) ≤ x) (hhi : x < 2 ^ (w - 1)) :
    toSigned w (toUnsigned w x) = x := by
  unfold toSigned toUnsigned
  have hcastw : ((2 ^ w : Nat) : Int) = 2 ^ w := by push_cast; rfl
  have hcastw1 : ((2 ^ (w - 1) : Nat) : Int) = 2 ^ (w - 1) := by push_cast; rfl
  have hsplit : (2 : Int) ^ w = 2 ^ (w - 1) * 2 := by
    conv_lhs => rw [show w = (w - 1) + 1 by omega]
    ring
  have hsplitn : (2 : Nat) ^ w = 2 ^ (w - 1) * 2 := by
    conv_lhs => rw [show w = (w - 1) + 1 by omega]
    ring
  rcases le_or_lt 0 x with hpos | hneg
  · have hxlt : x < ((2 ^ w : Nat) : Int) := by
      rw [hcastw]
      omega
    have hxmod : x % ((2 ^ w : Nat) : Int) = x := Int.emod_eq_of_lt hpos hxlt
    rw [hxmod]
    have hxn : x.toNat < 2 ^ (w - 1) := by omega
    have hmod : x.toNat % 2 ^ w = x.toNat := Nat.mod_eq_of_lt (by omega)
    rw [hmod, if_pos (by omega)]
    omega
  · have hxmod : x % ((2 ^ w : Nat) : Int) = x + ((2 ^ w : Nat) : Int) := by
      have h1 := Int.add_mul_emod_self_left x (((2 ^ w : Nat) : Int)) 1
      rw [Int.mul_one] at h1
      rw [← h1]
      apply Int.emod_eq_of_lt
      · rw [hcastw]
        omega
      · rw [hcastw]
        omega
    rw [hxmod]
    have hn1 : (x + ((2 ^ w : Nat) : Int)).toNat < 2 ^ w := by omega
    have hn2 : 2 ^ (w - 1) ≤ (x + ((2 ^ w : Nat) : Int)).toNat := by omega
    have hmod : (x + ((2 ^ w : Nat) : Int)).toNat % 2 ^ w =
        (x + ((2 ^ w : Nat) : Int)).toNat := Nat.mod_eq_of_lt hn1
    rw [hmod, if_neg (by omega)]
    omega

theorem IntFixed_rt (opts : GlobalOptions) (size : Nat) (x : Int)
    (hsz : 0 < size) (hlo : -(2 ^ (8 * size - 1)) ≤ x)
    (hhi : x < 2 ^ (8 * size - 1)) (rest : List Nat) :
    IntFixed.read opts size
        ((match IntFixed.write opts size x with
          | .ok bs => bs
          | .error _ => []) ++ rest) = .ok (x, rest) := by
  unfold IntFixed.write IntFixed.read
  rw [UIntFixed_rt opts size (toUnsigned (8 * size) x)
    (toUnsigned_lt (8 * size) x) rest]
  show Except.ok (toSigned (8 * size) (toUnsigned (8 * size) x), rest) =
    Except.ok (x, rest)
  rw [toSigned_toUnsigned (8 * size) (by omega) x hlo hhi]

/-! Helper lemmas: container element loops. -/

theorem readElems_writeElems (c : Codec α) (hc : c.RT) :
    ∀ (l : List α) (bs rest : List Nat), writeElems c.write l = .ok bs →
      readElems c.read l.length (bs ++ rest) = .ok (l, rest) := by
  intro l
  induction l with
  | nil =>
    intro bs rest hw
    unfold writeElems at hw
    cases hw
    rfl
  | cons a as ih =>
    intro bs rest hw
    unfold writeElems at hw
    cases ha : c.write a with
    | error e =>
      simp only [ha] at hw
      exact Except.noConfusion hw
    | ok b =>
      cases has : writeElems c.write as with
      | error e =>
        simp only [ha, has] at hw
        exact Except.noConfusion hw
      | ok bsRest =>
        simp only [ha, has] at hw
        cases hw
        simp only [List.length_cons, readElems, List.append_assoc,
          hc a b (bsRest ++ rest) ha, ih bsRest rest has]

theorem readElems_length (rf : List Nat → DecodeRes α) :
    ∀ (n : Nat) (bs : List Nat) (out : List α) (rest : List Nat),
      readElems rf n bs = .ok (out, rest) → out.length = n := by
  intro n
  induction n with
  | zero =>
    intro bs out rest h
    unfold readElems at h
    cases h
    rfl
  | succ m ih =>
    intro bs out rest h
    unfold readElems at h
    cases h1 : rf bs with
    | error e =>
      simp only [h1] at h
      exact Except.noConfusion h
    | ok p =>
      obtain ⟨a, bs1⟩ := p
      cases h2 : readElems rf m bs1 with
      | error e =>
        simp only [h1, h2] at h
        exact Except.noConfusion h
      | ok q =>
        obtain ⟨as, bs2⟩ := q
        simp only [h1, h2] at h
        cases h
        simp [ih bs1 as rest h2]

theorem emplace_append_of_gt [LinearOrder κ] (k : κ) (v : ν) :
    ∀ acc : List (κ × ν), (∀ q ∈ acc, q.1 < k) →
      emplace acc k v = acc ++ [(k, v)] := by
  intro acc
  induction acc with
  | nil => intro _; rfl
  | cons p rest ih =>
    intro hall
    obtain ⟨k0, v0⟩ := p
    have hk0 : k0 < k := hall (k0, v0) (List.mem_cons_self _ _)
    unfold emplace
    rw [if_neg (not_lt_of_gt hk0), if_pos hk0]
    rw [ih (fun q hq => hall q (List.mem_cons_of_mem _ hq))]
    rfl

theorem readPairsInto_writePairs [LinearOrder κ] (ck : Codec κ) (cv : Codec ν)
    (hk : ck.RT) (hv : cv.RT) :
    ∀ (l acc : List (κ × ν)) (bs rest : List Nat),
      writePairs ck cv l = .ok bs →
      (∀ p ∈ l, ∀ q ∈ acc, q.1 < p.1) →
      l.Pairwise (fun p q => p.1 < q.1) →
      readPairsInto ck cv l.length acc (bs ++ rest) = .ok (acc ++ l, rest) := by
  intro l
  induction l with
  | nil =>
    intro acc bs rest hw _ _
    unfold writePairs at hw
    cases hw
    simp [readPairsInto]
  | cons p ps ih =>
    intro acc bs rest hw hgt hsort
    obtain ⟨k, v⟩ := p
    unfold writePairs at hw
    cases hbk : ck.write k with
    | error e =>
      simp only [hbk] at hw
      exact Except.noConfusion hw
    | ok bk =>
      cases hbv : cv.write v with
      | error e =>
        simp only [hbk, hbv] at hw
        exact Except.noConfusion hw
      | ok bv =>
        cases hps : writePairs ck cv ps with
        | error e =>
          simp only [hbk, hbv, hps] at hw
          exact Except.noConfusion hw
        | ok bsRest =>
          simp only [hbk, hbv, hps] at hw
          cases hw
          have hemp : emplace acc k v = acc ++ [(k, v)] :=
            emplace_append_of_gt k v acc
              (fun q hq => hgt (k, v) (List.mem_cons_self _ _) q hq)
          have hgt2 : ∀ p ∈ ps, ∀ q ∈ acc ++ [(k, v)], q.1 < p.1 := by
            intro p hp q hq
            rcases List.mem_append.mp hq with hq | hq
            · exact hgt p (List.mem_cons_of_mem _ hp) q hq
            · rcases List.mem_singleton.mp hq with rfl
              exact (List.pairwise_cons.mp hsort).1 p hp
          have hrec := ih (acc ++ [(k, v)]) bsRest rest hps hgt2
            (List.pairwise_cons.mp hsort).2
          simp only [List.length_cons, readPairsInto, List.append_assoc,
            hk k bk (bv ++ (bsRest ++ rest)) hbk,
            hv v bv (bsRest ++ rest) hbv, hemp, hrec]
          simp

/-! Helper lemmas: round trips of the individual serializers. -/

theorem BoolFixed_rt (b : Bool) (rest : List Nat) :
    BoolFixed.read ((if b then 1 else 0) :: rest) = .ok (b, rest) := by
  cases b <;> rfl

theorem FloatFixed_rt (size : Nat) (rep : List Nat) (h : rep.length = size)
    (rest : List Nat) : FloatFixed.read size (rep ++ rest) = .ok (rep, rest) :=
  readBytes_append' rep rest h

theorem UIntVarint_rt (w v : Nat) (hw : w ≤ 64) (hv : v < 2 ^ w)
    (rest : List Nat) :
    UIntVarint.read w (write_uleb128 v ++ rest) = .ok (v, rest) := by
  unfold UIntVarint.read
  have hv64 : v < 2 ^ 64 :=
    lt_of_lt_of_le hv (Nat.pow_le_pow_right (by omega) hw)
  rw [read_uleb128_write hv64 rest]
  dsimp only
  rw [Nat.mod_eq_of_lt hv]

theorem zigzag_encode_lt (x : Int) (hlo : -(2 ^ 63) ≤ x) (hhi : x < 2 ^ 63) :
    zigzag_encode x < 2 ^ 64 := by
  rcases le_or_lt 0 x with hpos | hneg
  · rw [zigzag_encode_nonneg x hpos hhi]
    omega
  · rw [zigzag_encode_neg x hneg hlo]
    omega

theorem IntVarint_rt (w : Nat) (x : Int) (hw : 0 < w) (hw64 : w ≤ 64)
    (hlo : -(2 ^ (w - 1)) ≤ x) (hhi : x < 2 ^ (w - 1)) (rest : List Nat) :
    IntVarint.read w (write_uleb128 (zigzag_encode x) ++ rest) = .ok (x, rest) := by
  unfold IntVarint.read
  have hrange : -(2 ^ 63) ≤ x ∧ x < 2 ^ 63 := by
    have h1 : (2 : Int) ^ (w - 1) ≤ 2 ^ 63 :=
      pow_le_pow_right₀ (by omega) (by omega)
    omega
  rw [read_uleb128_write (zigzag_encode_lt x hrange.1 hrange.2) rest]
  dsimp only
  rw [zigzag_roundtrip x hrange.1 hrange.2]
  unfold wrapSigned
  rw [show toUnsigned w x = toUnsigned w x from rfl]
  rw [toSigned_toUnsigned w hw x hlo hhi]

theorem StringVarint_rt (opts : GlobalOptions) (s : List Nat)
    (hlen : s.length ≤ opts.max_string_size) (hlen64 : s.length < 2 ^ 64)
    (rest : List Nat) :
    StringVarint.read opts (write_uleb128 s.length ++ s ++ rest) =
      .ok (s, rest) := by
  unfold StringVarint.read
  rw [List.append_assoc, read_uleb128_write hlen64 (s ++ rest)]
  dsimp only
  rw [if_neg (by omega)]
  exact readBytes_append s rest

theorem ByteArrayVarint_rt (opts : GlobalOptions) (v : List Nat)
    (hlen : v.length ≤ opts.max_string_size) (hlen64 : v.length < 2 ^ 64)
    (rest : List Nat) :
    ByteArrayVarint.read opts (write_uleb128 v.length ++ v ++ rest) =
      .ok (v, rest) := by
  unfold ByteArrayVarint.read
  rw [List.append_assoc, read_uleb128_write hlen64 (v ++ rest)]
  dsimp only
  rw [if_neg (by omega)]
  exact readBytes_append v rest

theorem ByteViewVarint_rt (opts : GlobalOptions) (v : List Nat)
    (hlen : v.length ≤ opts.max_string_size) (hlen64 : v.length < 2 ^ 64)
    (rest : List Nat) :
    ByteViewVarint.read opts (write_uleb128 v.length ++ v ++ rest) =
      .ok (v, rest) := by
  unfold ByteViewVarint.read
  rw [List.append_assoc, read_uleb128_write hlen64 (v ++ rest)]
  dsimp only
  rw [if_neg (by omega)]
  exact readBytes_append v rest

theorem StringFixed_write_eq (N : Nat) (s : List Nat) :
    StringFixed.write N s = .ok (s.take N ++ List.replicate (N - s.length) 0) :=
  rfl

theorem StringFixed_read_write (N : Nat) (s : List Nat) (rest : List Nat) :
    StringFixed.read N (s.take N ++ List.replicate (N - s.length) 0 ++ rest) =
      .ok (s.take N ++ List.replicate (N - s.length) 0, rest) := by
  unfold StringFixed.read
  apply readBytes_append'
  simp
  omega

theorem ByteArrayFixed_rt (N : Nat) (v : List Nat) (h : v.length = N)
    (rest : List Nat) :
    ByteArrayFixed.write N v = .ok v ∧
      ByteArrayFixed.read N (v ++ rest) = .ok (v, rest) := by
  constructor
  · unfold ByteArrayFixed.write
    rw [if_neg (by omega)]
  · exact readBytes_append' v rest h

theorem VecVarint_rt (opts : GlobalOptions) (c : Codec α) (hc : c.RT)
    (l : List α) (bs : List Nat) (hlen : l.length ≤ opts.max_container_size)
    (hlen64 : l.length < 2 ^ 64) (rest : List Nat)
    (hw : VecVarint.write c l = .ok bs) :
    VecVarint.read opts c (bs ++ rest) = .ok (l, rest) := by
  unfold VecVarint.write at hw
  cases hbody : writeElems c.write l with
  | error e =>
    rw [hbody] at hw
    exact Except.noConfusion hw
  | ok body =>
    rw [hbody] at hw
    cases hw
    unfold VecVarint.read
    rw [List.append_assoc, read_uleb128_write hlen64 (body ++ rest)]
    dsimp only
    rw [if_neg (by omega)]
    exact readElems_writeElems c hc l body rest hbody

theorem VecFixed_rt (N : Nat) (c : Codec α) (hc : c.RT) (l : List α)
    (bs : List Nat) (hN : l.length = N) (rest : List Nat)
    (hw : VecFixed.write N c l = .ok bs) :
    VecFixed.read N c (bs ++ rest) = .ok (l, rest) := by
  unfold VecFixed.write at hw
  rw [if_neg (by omega)] at hw
  unfold VecFixed.read
  rw [← hN]
  exact readElems_writeElems c hc l bs rest hw

theorem MapVarint_rt [LinearOrder κ] (opts : GlobalOptions) (ck : Codec κ)
    (cv : Codec ν) (hk : ck.RT) (hv : cv.RT) (m : List (κ × ν))
    (hsort : SortedKeys m) (bs : List Nat)
    (hlen : m.length ≤ opts.max_container_size) (hlen64 : m.length < 2 ^ 64)
    (rest : List Nat) (hw : MapVarint.write ck cv m = .ok bs) :
    MapVarint.read opts ck cv (bs ++ rest) = .ok (m, rest) := by
  unfold MapVarint.write at hw
  cases hbody : writePairs ck cv m with
  | error e =>
    rw [hbody] at hw
    exact Except.noConfusion hw
  | ok body =>
    rw [hbody] at hw
    cases hw
    unfold MapVarint.read
    rw [List.append_assoc, read_uleb128_write hlen64 (body ++ rest)]
    dsimp only
    rw [if_neg (by omega)]
    have := readPairsInto_writePairs ck cv hk hv m [] body rest hbody
      (by intro p _ q hq; exact absurd hq (List.not_mem_nil q)) hsort
    simpa using this

theorem MapFixed_rt [LinearOrder κ] (N : Nat) (ck : Codec κ) (cv : Codec ν)
    (hk : ck.RT) (hv : cv.RT) (m : List (κ × ν)) (hsort : SortedKeys m)
    (bs : List Nat) (hN : m.length = N) (rest : List Nat)
    (hw : MapFixed.write N ck cv m = .ok bs) :
    MapFixed.read N ck cv (bs ++ rest) = .ok (m, rest) := by
  unfold MapFixed.write at hw
  rw [if_neg (by omega)] at hw
  unfold MapFixed.read
  rw [← hN]
  have := readPairsInto_writePairs ck cv hk hv m [] bs rest hw
    (by intro p _ q hq; exact absurd hq (List.not_mem_nil q)) hsort
  simpa using this

theorem seqCodec_rt (ca : Codec α) (cb : Codec β) (ha : ca.RT) (hb : cb.RT) :
    (seqCodec ca cb).RT := by
  intro v bs rest hw
  obtain ⟨a, b⟩ := v
  unfold seqCodec seqWrite at hw
  cases h1 : ca.write a with
  | error e =>
    simp only [h1] at hw
    exact Except.noConfusion hw
  | ok b1 =>
    cases h2 : cb.write b with
    | error e =>
      simp only [h1, h2] at hw
      exact Except.noConfusion hw
    | ok b2 =>
      simp only [h1, h2] at hw
      cases hw
      unfold seqCodec seqRead
      simp only [List.append_assoc, ha a b1 (b2 ++ rest) h1,
        hb b b2 rest h2]

theorem read_uleb128_byte (v : Nat) (hv : v ≤ 127) (rest : List Nat) :
    read_uleb128 (v :: rest) = .ok (v, rest) := by
  have h := read_uleb128_write (v := v) (by omega) rest
  rw [write_uleb128_small hv] at h
  simpa using h

theorem OptionVarint_rt (c : Codec α) (hc : c.RT) (o : Opt α) (init : Opt α)
    (bs rest : List Nat) (hw : OptionVarint.write c o = .ok bs) :
    OptionVarint.read c init (bs ++ rest) =
      .ok (⟨o.has_value, if o.has_value then o.value else init.value⟩, rest) := by
  unfold OptionVarint.write at hw
  cases ho : o.has_value with
  | false =>
    rw [ho] at hw
    simp only [Bool.false_eq_true, if_neg] at hw
    cases hw
    unfold OptionVarint.read
    rw [write_uleb128_small (by norm_num), List.singleton_append,
      read_uleb128_byte 0 (by norm_num) rest]
    dsimp only
    rw [if_pos rfl]
    simp
  | true =>
    rw [ho] at hw
    simp only [if_pos] at hw
    cases hp : c.write o.value with
    | error e =>
      rw [hp] at hw
      exact Except.noConfusion hw
    | ok b =>
      rw [hp] at hw
      cases hw
      unfold OptionVarint.read
      rw [write_uleb128_small (by norm_num), List.singleton_append,
        List.cons_append, read_uleb128_byte 1 (by norm_num) (b ++ rest)]
      dsimp only
      rw [if_neg (by norm_num)]
      rw [hc o.value b rest hp]
      dsimp only
      simp

theorem VariantVarint_write_ok {k : Nat} {T : Fin k → Type}
    (C : ∀ i, Codec (T i)) (v : Σ i, T i) (b : List Nat)
    (hp : (C v.1).write v.2 = .ok b) :
    VariantVarint.write C v = .ok (write_uleb128 v.1.val ++ b) := by
  unfold VariantVarint.write
  rw [hp]

theorem VariantVarint_rt {k : Nat} {T : Fin k → Type} (C : ∀ i, Codec (T i))
    (hk64 : k ≤ 2 ^ 64) (v : Σ i, T i) (bs rest : List Nat)
    (hC : (C v.1).RT) (hw : VariantVarint.write C v = .ok bs) :
    VariantVarint.read C (bs ++ rest) = .ok (v, rest) := by
  obtain ⟨⟨i, hi⟩, x⟩ := v
  unfold VariantVarint.write at hw
  cases hp : (C ⟨i, hi⟩).write x with
  | error e =>
    rw [hp] at hw
    exact Except.noConfusion hw
  | ok b =>
    rw [hp] at hw
    cases hw
    unfold VariantVarint.read
    rw [List.append_assoc, read_uleb128_write (by omega) (b ++ rest)]
    dsimp only
    rw [dif_pos hi]
    rw [hC x b rest hp]

theorem PValCodec_rt (c : Codec α) (hc : c.RT) : (PValCodec c).RT := by
  intro v bs rest hw
  unfold PValCodec at hw ⊢
  simp only at hw ⊢
  rw [hc v.value bs rest hw]

theorem boolCodec_rt : boolCodec.RT := by
  intro b bs rest hw
  unfold boolCodec BoolFixed.write at hw
  cases hw
  exact BoolFixed_rt b rest

theorem readPairsInto_eq_readElems [LinearOrder κ] (ck : Codec κ) (cv : Codec ν) :
    ∀ (n : Nat) (acc : List (κ × ν)) (bs : List Nat),
      readPairsInto ck cv n acc bs =
        (readElems (seqRead ck cv) n bs).map
          (fun pr => (pr.1.foldl (fun m p => emplace m p.1 p.2) acc, pr.2)) := by
  intro n
  induction n with
  | zero => intro acc bs; rfl
  | succ m ih =>
    intro acc bs
    cases h1 : ck.read bs with
    | error e =>
      have hseq : seqRead ck cv bs = .error e := by
        unfold seqRead
        rw [h1]
      unfold readPairsInto readElems
      rw [h1, hseq]
      rfl
    | ok p =>
      obtain ⟨k, bs1⟩ := p
      cases h2 : cv.read bs1 with
      | error e =>
        have hseq : seqRead ck cv bs = .error e := by
          unfold seqRead
          rw [h1]
          dsimp only
          rw [h2]
        unfold readPairsInto readElems
        rw [h1, hseq]
        dsimp only
        rw [h2]
        rfl
      | ok q =>
        obtain ⟨v, bs2⟩ := q
        have hseq : seqRead ck cv bs = .ok ((k, v), bs2) := by
          unfold seqRead
          rw [h1]
          dsimp only
          rw [h2]
        unfold readPairsInto readElems
        rw [h1, hseq]
        dsimp only
        rw [h2]
        dsimp only
        rw [ih (emplace acc k v) bs2]
        cases h3 : readElems (seqRead ck cv) m bs2 with
        | error e => rfl
        | ok r => rfl

/-! Claim theorems. -/

/-- C2 counterexample: the claim says every byte-buffer value is
truncated/zero-padded to N bytes by a FixedWidth(N) encode, but encoding the
2-byte ByteArray [1, 2] under Fixed<3> raises LengthOverflow instead of
producing 3 bytes. -/
theorem C2_counterexample :
    ByteArrayFixed.write 3 [1, 2] = .error .LengthOverflow :=
  rfl

/-- C2 amended: a string under FixedWidth(N) encodes to exactly N bytes,
truncating when longer and zero-padding when shorter; a ByteArray under
FixedWidth(N) encodes to exactly its N bytes when its size is N and raises
LengthOverflow otherwise; decoding under FixedWidth(N) reads exactly N bytes
for both. -/
theorem C2_string_bytearray_fixed :
    (∀ (N : Nat) (s : List Nat),
      StringFixed.write N s = .ok (s.take N ++ List.replicate (N - s.length) 0) ∧
        (s.take N ++ List.replicate (N - s.length) 0).length = N) ∧
    (∀ (N : Nat) (v : List Nat), v.length = N → ByteArrayFixed.write N v = .ok v) ∧
    (∀ (N : Nat) (v : List Nat), v.length ≠ N →
      ByteArrayFixed.write N v = .error .LengthOverflow) ∧
    (∀ (N : Nat) (bs out rest : List Nat),
      StringFixed.read N bs = .ok (out, rest) → out.length = N ∧ bs = out ++ rest) ∧
    (∀ (N : Nat) (bs out rest : List Nat),
      ByteArrayFixed.read N bs = .ok (out, rest) → out.length = N ∧ bs = out ++ rest) := by
  refine ⟨?_, ?_, ?_, ?_, ?_⟩
  · intro N s
    refine ⟨rfl, ?_⟩
    simp
    omega
  · intro N v h
    unfold ByteArrayFixed.write
    rw [if_neg (by omega)]
  · intro N v h
    unfold ByteArrayFixed.write
    rw [if_pos h]
  · intro N bs out rest h
    unfold StringFixed.read readBytes at h
    by_cases hle : N ≤ bs.length
    · rw [if_pos hle] at h
      cases h
      constructor
      · simp [List.length_take]
        omega
      · simp
    · rw [if_neg hle] at h
      exact Except.noConfusion h
  · intro N bs out rest h
    unfold ByteArrayFixed.read readBytes at h
    by_cases hle : N ≤ bs.length
    · rw [if_pos hle] at h
      cases h
      constructor
      · simp [List.length_take]
        omega
      · simp
    · rw [if_neg hle] at h
      exact Except.noConfusion h

/-- C2 witness: concrete instances of the amended claim, obtained from
C2_string_bytearray_fixed at "hi"/Fixed<4>, [1,2,3]/Fixed<3>, [1,2]/Fixed<3>
and a 3-byte decode. -/
theorem C2_string_bytearray_fixed_witness :
    (StringFixed.write 4 [104, 105] = .ok [104, 105, 0, 0] ∧
      ([104, 105, 0, 0] : List Nat).length = 4) ∧
    ByteArrayFixed.write 3 [1, 2, 3] = .ok [1, 2, 3] ∧
    ByteArrayFixed.write 3 [1, 2] = .error .LengthOverflow ∧
    (([7, 8, 9] : List Nat).length = 3 ∧ ([7, 8, 9] : List Nat) = [7, 8, 9] ++ []) := by
  refine ⟨?_, ?_, ?_, ?_⟩
  · have h := C2_string_bytearray_fixed.1 4 [104, 105]
    simpa using h
  · exact C2_string_bytearray_fixed.2.1 3 [1, 2, 3] (by decide)
  · exact C2_string_bytearray_fixed.2.2.1 3 [1, 2] (by decide)
  · exact C2_string_bytearray_fixed.2.2.2.2 3 [7, 8, 9] [7, 8, 9] [] rfl

/-- C10: decoding an unsigned integer of width w bits under Varint reduces the
decoded uint64 value modulo 2 ^ w and never raises: any encoded value v,
including one exceeding the target type maximum, decodes to v mod 2 ^ w. -/
theorem C10_unsigned_varint_truncation (w v : Nat) (hv : v < 2 ^ 64)
    (rest : List Nat) :
    UIntVarint.read w (write_uleb128 v ++ rest) = .ok (v % 2 ^ w, rest) := by
  unfold UIntVarint.read
  rw [read_uleb128_write hv rest]

/-- C10 witness: 300 does not fit in 8 bits; decoding its varint bytes as an
8-bit unsigned integer succeeds and yields 300 mod 256 = 44. -/
theorem C10_unsigned_varint_truncation_witness :
    300 < 2 ^ 64 ∧ UIntVarint.read 8 (write_uleb128 300 ++ []) = .ok (44, []) := by
  refine ⟨by norm_num, ?_⟩
  have h := C10_unsigned_varint_truncation 8 300 (by norm_num) []
  rw [h]
  norm_num

/-- C5: read_uleb128 raises InvalidVarint exactly when the first ten bytes of
the stream all carry the continuation bit, that is when the continuation
chain pushes the accumulated shift past 64 bits (shift reaches 70 on the
tenth continuation byte); any chain whose continuation stops earlier never
produces this error. -/
theorem C5_invalid_varint (bs : List Nat) :
    read_uleb128 bs = .error .InvalidVarint ↔
      10 ≤ bs.length ∧ ∀ b ∈ bs.take 10, b &&& 0x80 ≠ 0 :=
  read_uleb128_invalid bs

/-- C9: the Option decoder treats any nonzero presence flag as present (then
decodes the payload), and on a zero flag only clears has_value, leaving the
value field of the output object untouched. -/
theorem C9_option_flag :
    (∀ (α : Type) (c : Codec α) (init : Opt α) (rest : List Nat),
      OptionVarint.read c init (write_uleb128 0 ++ rest) =
        .ok (⟨false, init.value⟩, rest)) ∧
    (∀ (α : Type) (c : Codec α) (init : Opt α) (flag : Nat) (rest : List Nat),
      flag ≠ 0 → flag < 2 ^ 64 →
      ∀ (v : α) (bs2 : List Nat), c.read rest = .ok (v, bs2) →
        OptionVarint.read c init (write_uleb128 flag ++ rest) =
          .ok (⟨true, v⟩, bs2)) := by
  constructor
  · intro α c init rest
    unfold OptionVarint.read
    rw [read_uleb128_write (by norm_num) rest]
    dsimp only
    rw [if_pos rfl]
  · intro α c init flag rest hne h64 v bs2 hread
    unfold OptionVarint.read
    rw [read_uleb128_write h64 rest]
    dsimp only
    rw [if_neg hne, hread]

/-- C9 witness: flag value 2 (not only 1) is treated as present; a zero flag
leaves the initial value field (here true) in place. -/
theorem C9_option_flag_witness :
    OptionVarint.read boolCodec ⟨false, false⟩ (write_uleb128 2 ++ [1]) =
      .ok (⟨true, true⟩, []) ∧
    OptionVarint.read boolCodec ⟨true, true⟩ (write_uleb128 0 ++ [9]) =
      .ok (⟨false, true⟩, [9]) := by
  constructor
  · exact C9_option_flag.2 Bool boolCodec ⟨false, false⟩ 2 [1] (by norm_num)
      (by norm_num) true [] rfl
  · exact C9_option_flag.1 Bool boolCodec ⟨true, true⟩ [9]

/-- C6: the concrete wire vectors: unsigned 300 under Varint encodes to
[0xAC, 0x02] and decodes back to 300 at width 32; signed -1 under Varint
(ZigZag then base-128) encodes to [0x01] and decodes back to -1 at width 32;
the string "hi" under Varint encodes to [0x02, 'h', 'i'] and under
FixedWidth(4) to ['h', 'i', 0x00, 0x00]. -/
theorem C6_concrete_vectors :
    UIntVarint.write 300 = .ok [0xAC, 0x02] ∧
    UIntVarint.read 32 [0xAC, 0x02] = .ok (300, []) ∧
    IntVarint.write (-1) = .ok [0x01] ∧
    IntVarint.read 32 [0x01] = .ok (-1, []) ∧
    StringVarint.write [104, 105] = .ok [0x02, 104, 105] ∧
    StringFixed.write 4 [104, 105] = .ok [104, 105, 0x00, 0x00] := by
  refine ⟨?_, ?_, ?_, ?_, ?_, ?_⟩
  · unfold UIntVarint.write
    rw [show write_uleb128 300 = [0xAC, 0x02] from by
      rw [write_uleb128_big (by norm_num), write_uleb128_small (by decide)]
      decide]
  · rfl
  · unfold IntVarint.write
    rw [show zigzag_encode (-1) = 1 from by decide]
    rw [write_uleb128_small (by norm_num)]
  · rfl
  · unfold StringVarint.write
    rw [show write_uleb128 ([104, 105] : List Nat).length = [2] from by
      rw [write_uleb128_small (by decide)]
      rfl]
    rfl
  · rfl

/-- C3: encoding a sequence whose length differs from N under FixedWidth(N)
raises LengthOverflow (in particular a 2-element sequence under
FixedWidth(3)); decoding under FixedWidth(N) always produces exactly N
elements; and key-value collections follow the same shape rules, the map
encoder rejecting a size other than N and the map decoder reading exactly N
entries, each a key then a value (the seqRead of the two codecs), which are
then emplaced into the cleared output map. -/
theorem C3_fixed_size_rules :
    (∀ (α : Type) (c : Codec α) (N : Nat) (l : List α), l.length ≠ N →
      VecFixed.write N c l = .error .LengthOverflow) ∧
    VecFixed.write 3 boolCodec [true, false] = .error .LengthOverflow ∧
    (∀ (α : Type) (c : Codec α) (N : Nat) (bs : List Nat) (out : List α)
      (rest : List Nat), VecFixed.read N c bs = .ok (out, rest) →
        out.length = N) ∧
    (∀ (κ ν : Type) [LinearOrder κ] (ck : Codec κ) (cv : Codec ν) (N : Nat)
      (m : List (κ × ν)), m.length ≠ N →
        MapFixed.write N ck cv m = .error .LengthOverflow) ∧
    (∀ (κ ν : Type) [LinearOrder κ] (ck : Codec κ) (cv : Codec ν) (N : Nat)
      (bs : List Nat),
      MapFixed.read N ck cv bs =
        (readElems (seqRead ck cv) N bs).map
          (fun pr => (pr.1.foldl (fun m p => emplace m p.1 p.2) [], pr.2))) := by
  refine ⟨?_, ?_, ?_, ?_, ?_⟩
  · intro α c N l h
    unfold VecFixed.write
    rw [if_pos h]
  · rfl
  · intro α c N bs out rest h
    exact readElems_length c.read N bs out rest h
  · intro κ ν inst ck cv N m h
    unfold MapFixed.write
    rw [if_pos h]
  · intro κ ν inst ck cv N bs
    unfold MapFixed.read
    exact readPairsInto_eq_readElems ck cv N [] bs

/-- C3 witness: concrete instances from C3_fixed_size_rules: a 1-element
vector under Fixed<3> fails to encode; a successful Fixed<2> decode yields
exactly 2 elements; a 1-entry bool map under Fixed<2> fails to encode. -/
theorem C3_fixed_size_rules_witness :
    VecFixed.write 3 boolCodec [true] = .error .LengthOverflow ∧
    (([true, false] : List Bool).length = 2) ∧
    MapFixed.write 2 boolCodec boolCodec [(false, true)] =
      .error .LengthOverflow := by
  refine ⟨?_, ?_, ?_⟩
  · exact C3_fixed_size_rules.1 Bool boolCodec 3 [true] (by decide)
  · exact C3_fixed_size_rules.2.2.1 Bool boolCodec 2 [1, 0, 9] [true, false] [9] rfl
  · exact C3_fixed_size_rules.2.2.2.1 Bool Bool boolCodec boolCodec 2
      [(false, true)] (by decide)

/-- C4: for the length-prefixed decoders (string, byte array, byte view,
vector, map), a decoded length or count prefix exceeding the configured
maximum (max_string_size for the byte-like types, max_container_size for the
containers) makes decode fail with LengthOverflow immediately after the
prefix, before reading any content: the error is produced for every
continuation of the stream. -/
theorem C4_length_overflow :
    (∀ (opts : GlobalOptions) (len : Nat) (rest : List Nat), len < 2 ^ 64 →
      opts.max_string_size < len →
      StringVarint.read opts (write_uleb128 len ++ rest) =
        .error .LengthOverflow) ∧
    (∀ (opts : GlobalOptions) (len : Nat) (rest : List Nat), len < 2 ^ 64 →
      opts.max_string_size < len →
      ByteArrayVarint.read opts (write_uleb128 len ++ rest) =
        .error .LengthOverflow) ∧
    (∀ (opts : GlobalOptions) (len : Nat) (rest : List Nat), len < 2 ^ 64 →
      opts.max_string_size < len →
      ByteViewVarint.read opts (write_uleb128 len ++ rest) =
        .error .LengthOverflow) ∧
    (∀ (α : Type) (c : Codec α) (opts : GlobalOptions) (len : Nat)
      (rest : List Nat), len < 2 ^ 64 → opts.max_container_size < len →
      VecVarint.read opts c (write_uleb128 len ++ rest) =
        .error .LengthOverflow) ∧
    (∀ (κ ν : Type) [LinearOrder κ] (ck : Codec κ) (cv : Codec ν)
      (opts : GlobalOptions) (len : Nat) (rest : List Nat), len < 2 ^ 64 →
      opts.max_container_size < len →
      MapVarint.read opts ck cv (write_uleb128 len ++ rest) =
        .error .LengthOverflow) := by
  refine ⟨?_, ?_, ?_, ?_, ?_⟩
  · intro opts len rest h64 hmax
    unfold StringVarint.read
    rw [read_uleb128_write h64 rest]
    dsimp only
    rw [if_pos hmax]
  · intro opts len rest h64 hmax
    unfold ByteArrayVarint.read
    rw [read_uleb128_write h64 rest]
    dsimp only
    rw [if_pos hmax]
  · intro opts len rest h64 hmax
    unfold ByteViewVarint.read
    rw [read_uleb128_write h64 rest]
    dsimp only
    rw [if_pos hmax]
  · intro α c opts len rest h64 hmax
    unfold VecVarint.read
    rw [read_uleb128_write h64 rest]
    dsimp only
    rw [if_pos hmax]
  · intro κ ν inst ck cv opts len rest h64 hmax
    unfold MapVarint.read
    rw [read_uleb128_write h64 rest]
    dsimp only
    rw [if_pos hmax]

/-- C4 witness: with limits set to 2, a prefix of 3 overflows for all five
decoders, whatever bytes follow (here a garbage payload). -/
theorem C4_length_overflow_witness :
    StringVarint.read ⟨.big, 2, 2⟩ (write_uleb128 3 ++ [7, 7, 7]) =
      .error .LengthOverflow ∧
    ByteArrayVarint.read ⟨.big, 2, 2⟩ (write_uleb128 3 ++ []) =
      .error .LengthOverflow ∧
    ByteViewVarint.read ⟨.big, 2, 2⟩ (write_uleb128 3 ++ [0]) =
      .error .LengthOverflow ∧
    VecVarint.read ⟨.big, 2, 2⟩ boolCodec (write_uleb128 3 ++ [1, 1, 1]) =
      .error .LengthOverflow ∧
    MapVarint.read ⟨.big, 2, 2⟩ boolCodec boolCodec (write_uleb128 3 ++ []) =
      .error .LengthOverflow := by
  refine ⟨?_, ?_, ?_, ?_, ?_⟩
  · exact C4_length_overflow.1 ⟨.big, 2, 2⟩ 3 [7, 7, 7] (by norm_num) (by norm_num)
  · exact C4_length_overflow.2.1 ⟨.big, 2, 2⟩ 3 [] (by norm_num) (by norm_num)
  · exact C4_length_overflow.2.2.1 ⟨.big, 2, 2⟩ 3 [0] (by norm_num) (by norm_num)
  · exact C4_length_overflow.2.2.2.1 Bool boolCodec ⟨.big, 2, 2⟩ 3 [1, 1, 1]
      (by norm_num) (by norm_num)
  · exact C4_length_overflow.2.2.2.2 Bool Bool boolCodec boolCodec ⟨.big, 2, 2⟩
      3 [] (by norm_num) (by norm_num)

/-- C7: a variant with k declared alternatives writes a base-128 discriminant
equal to the zero-based active index followed by the payload under that
alternative's codec; decoding a discriminant at or past k raises
VariantOutOfRange, and every in-range discriminant decodes that
alternative's payload. -/
theorem C7_variant :
    (∀ (k : Nat) (T : Fin k → Type) (C : ∀ i, Codec (T i)) (v : Σ i, T i)
      (b : List Nat), (C v.1).write v.2 = .ok b →
        VariantVarint.write C v = .ok (write_uleb128 v.1.val ++ b)) ∧
    (∀ (k : Nat) (T : Fin k → Type) (C : ∀ i, Codec (T i)) (idx : Nat)
      (rest : List Nat), k ≤ idx → idx < 2 ^ 64 →
        VariantVarint.read C (write_uleb128 idx ++ rest) =
          .error .VariantOutOfRange) ∧
    (∀ (k : Nat) (T : Fin k → Type) (C : ∀ i, Codec (T i)), k ≤ 2 ^ 64 →
      ∀ (v : Σ i, T i) (bs rest : List Nat), (C v.1).RT →
        VariantVarint.write C v = .ok bs →
          VariantVarint.read C (bs ++ rest) = .ok (v, rest)) := by
  refine ⟨?_, ?_, ?_⟩
  · intro k T C v b hp
    exact VariantVarint_write_ok C v b hp
  · intro k T C idx rest hk h64
    unfold VariantVarint.read
    rw [read_uleb128_write h64 rest]
    dsimp only
    rw [dif_neg (by omega)]
  · intro k T C hk64 v bs rest hC hw
    exact VariantVarint_rt C hk64 v bs rest hC hw

/-- C7 witness: for the two-alternative bool variant, writing alternative 1
produces discriminant byte 1 then the payload; discriminant 2 (equal to the
alternative count) fails with VariantOutOfRange; and the written bytes
decode back to the active alternative. -/
theorem C7_variant_witness :
    VariantVarint.write (fun _ : Fin 2 => boolCodec) ⟨1, true⟩ =
      .ok (write_uleb128 (1 : Fin 2).val ++ [1]) ∧
    VariantVarint.read (fun _ : Fin 2 => boolCodec) (write_uleb128 2 ++ [0]) =
      .error .VariantOutOfRange ∧
    VariantVarint.read (fun _ : Fin 2 => boolCodec) ([1, 1] ++ []) =
      .ok (⟨1, true⟩, []) := by
  refine ⟨?_, ?_, ?_⟩
  · exact C7_variant.1 2 (fun _ => Bool) (fun _ => boolCodec) ⟨1, true⟩ [1] rfl
  · exact C7_variant.2.1 2 (fun _ => Bool) (fun _ => boolCodec) 2 [0]
      (by norm_num) (by norm_num)
  · have hw : VariantVarint.write (fun _ : Fin 2 => boolCodec) ⟨1, true⟩ =
        .ok [1, 1] := by
      unfold VariantVarint.write
      dsimp only
      rw [show boolCodec.write true = .ok [1] from rfl]
      rw [write_uleb128_small (by norm_num)]
      rfl
    exact C7_variant.2.2 2 (fun _ => Bool) (fun _ => boolCodec) (by norm_num)
      ⟨1, true⟩ [1, 1] [] boolCodec_rt hw

/-- C8: container element bytes are produced by each element's own codec (its
default-resolved protocol), independent of the protocol tag the container is
encoded under: the Varint and FixedWidth vector encodings of the same vector
differ only by the count prefix, and likewise the Varint and FixedWidth map
encodings of the same map (whose entry bytes come from the key and value
codecs, key then value) differ only by the count prefix; tuples have only
the FixedWidth encoding, whose component bytes are the seqWrite of the
component codecs by definition; and the protocol-bound value box PVal
delegates encode and decode verbatim to the inner type's codec under the
carried tag. -/
theorem C8_element_tag_independence :
    (∀ (α : Type) (c : Codec α) (l : List α) (body : List Nat),
      writeElems c.write l = .ok body →
        VecVarint.write c l = .ok (write_uleb128 l.length ++ body) ∧
        VecFixed.write l.length c l = .ok body) ∧
    (∀ (α : Type) (c : Codec α) (l : List α) (bsV bsF : List Nat),
      VecVarint.write c l = .ok bsV → VecFixed.write l.length c l = .ok bsF →
        bsV = write_uleb128 l.length ++ bsF) ∧
    (∀ (κ ν : Type) [LinearOrder κ] (ck : Codec κ) (cv : Codec ν)
      (m : List (κ × ν)) (body : List Nat),
      writePairs ck cv m = .ok body →
        MapVarint.write ck cv m = .ok (write_uleb128 m.length ++ body) ∧
        MapFixed.write m.length ck cv m = .ok body) ∧
    (∀ (κ ν : Type) [LinearOrder κ] (ck : Codec κ) (cv : Codec ν)
      (m : List (κ × ν)) (bsV bsF : List Nat),
      MapVarint.write ck cv m = .ok bsV →
      MapFixed.write m.length ck cv m = .ok bsF →
        bsV = write_uleb128 m.length ++ bsF) ∧
    (∀ (α : Type) (c : Codec α) (v : PVal α),
      (PValCodec c).write v = c.write v.value) ∧
    (∀ (α : Type) (c : Codec α) (bs : List Nat),
      (PValCodec c).read bs = (c.read bs).map (fun p => (⟨p.1⟩, p.2))) := by
  refine ⟨?_, ?_, ?_, ?_, ?_, ?_⟩
  · intro α c l body hbody
    constructor
    · unfold VecVarint.write
      rw [hbody]
    · unfold VecFixed.write
      rw [if_neg (fun h => h rfl), hbody]
  · intro α c l bsV bsF hV hF
    unfold VecVarint.write at hV
    unfold VecFixed.write at hF
    rw [if_neg (fun h => h rfl)] at hF
    cases hbody : writeElems c.write l with
    | error e =>
      rw [hbody] at hV
      exact Except.noConfusion hV
    | ok body =>
      rw [hbody] at hV hF
      cases hV
      cases hF
      rfl
  · intro κ ν inst ck cv m body hbody
    constructor
    · unfold MapVarint.write
      rw [hbody]
    · unfold MapFixed.write
      rw [if_neg (fun h => h rfl), hbody]
  · intro κ ν inst ck cv m bsV bsF hV hF
    unfold MapVarint.write at hV
    unfold MapFixed.write at hF
    rw [if_neg (fun h => h rfl)] at hF
    cases hbody : writePairs ck cv m with
    | error e =>
      rw [hbody] at hV
      exact Except.noConfusion hV
    | ok body =>
      rw [hbody] at hV hF
      cases hV
      cases hF
      rfl
  · intro α c v
    rfl
  · intro α c bs
    unfold PValCodec
    dsimp only
    cases h : c.read bs with
    | error e => rfl
    | ok p =>
      obtain ⟨v, r⟩ := p
      rfl

/-- C8 witness: the 2-element bool vector has the same element bytes [1, 0]
under both container tags, and the 2-entry bool map has the same entry bytes
[0, 1, 1, 0] (key then value per entry) under both container tags, Varint
adding only the count prefix in each case. -/
theorem C8_element_tag_independence_witness :
    (VecVarint.write boolCodec [true, false] =
        .ok (write_uleb128 ([true, false] : List Bool).length ++ [1, 0]) ∧
      VecFixed.write ([true, false] : List Bool).length boolCodec [true, false] =
        .ok [1, 0]) ∧
    (MapVarint.write boolCodec boolCodec [(false, true), (true, false)] =
        .ok (write_uleb128
          ([(false, true), (true, false)] : List (Bool × Bool)).length ++
            [0, 1, 1, 0]) ∧
      MapFixed.write ([(false, true), (true, false)] : List (Bool × Bool)).length
          boolCodec boolCodec [(false, true), (true, false)] =
        .ok [0, 1, 1, 0]) ∧
    (PValCodec boolCodec).write ⟨true⟩ = boolCodec.write true := by
  refine ⟨?_, ?_, ?_⟩
  · exact C8_element_tag_independence.1 Bool boolCodec [true, false] [1, 0] rfl
  · exact C8_element_tag_independence.2.2.1 Bool Bool boolCodec boolCodec
      [(false, true), (true, false)] [0, 1, 1, 0] rfl
  · exact C8_element_tag_independence.2.2.2.2.1 Bool boolCodec ⟨true⟩

/-- C1 counterexample: the string "hi" under FixedWidth(4) encodes (by
truncation/zero-padding) and then decodes to "hi\x00\x00", which is not equal
to "hi", so decode-of-encode under the same protocol tag is not the identity
for every supported value. -/
theorem C1_counterexample :
    StringFixed.write 4 [104, 105] = .ok [104, 105, 0, 0] ∧
    StringFixed.read 4 ([104, 105, 0, 0] ++ []) = .ok ([104, 105, 0, 0], []) ∧
    (([104, 105, 0, 0] : List Nat) == [104, 105]) = false :=
  ⟨rfl, rfl, rfl⟩

/-- C1 amended: decode-of-encode is the identity, under the same protocol
tag, for every supported value that the encoder accepts and whose sizes are
within the configured limits: booleans, fixed-width unsigned and signed
integers in range (both byte orders), floats (bit-exact, as their object
representation), varint unsigned and signed integers in range, strings and
byte buffers and byte views under Varint within max_string_size, byte arrays
of exactly N bytes under FixedWidth(N), vectors and maps (sorted, as
std::map iterates) under both Varint (within max_container_size) and
FixedWidth(N) with round-tripping element codecs, tuples and Schema records
(sequential composition of their component codecs), Option (whose absent
case leaves the decoder's prior value field untouched, so equality is of the
presence flag and of the value when present), variants, and PVal boxes.  The
exception forced by the counterexample: a string under FixedWidth(N)
decodes back to its truncation/zero-padding to N bytes, which is the
original string exactly when its length is N. -/
theorem C1_roundtrip :
    (∀ (b : Bool) (bs rest : List Nat), BoolFixed.write b = .ok bs →
      BoolFixed.read (bs ++ rest) = .ok (b, rest)) ∧
    (∀ (opts : GlobalOptions) (size v : Nat) (bs rest : List Nat),
      v < 2 ^ (8 * size) → UIntFixed.write opts size v = .ok bs →
      UIntFixed.read opts size (bs ++ rest) = .ok (v, rest)) ∧
    (∀ (opts : GlobalOptions) (size : Nat) (x : Int) (bs rest : List Nat),
      0 < size → -(2 ^ (8 * size - 1)) ≤ x → x < 2 ^ (8 * size - 1) →
      IntFixed.write opts size x = .ok bs →
      IntFixed.read opts size (bs ++ rest) = .ok (x, rest)) ∧
    (∀ (size : Nat) (rep bs rest : List Nat), rep.length = size →
      FloatFixed.write rep = .ok bs →
      FloatFixed.read size (bs ++ rest) = .ok (rep, rest)) ∧
    (∀ (w v : Nat) (bs rest : List Nat), w ≤ 64 → v < 2 ^ w →
      UIntVarint.write v = .ok bs →
      UIntVarint.read w (bs ++ rest) = .ok (v, rest)) ∧
    (∀ (w : Nat) (x : Int) (bs rest : List Nat), 0 < w → w ≤ 64 →
      -(2 ^ (w - 1)) ≤ x → x < 2 ^ (w - 1) → IntVarint.write x = .ok bs →
      IntVarint.read w (bs ++ rest) = .ok (x, rest)) ∧
    (∀ (opts : GlobalOptions) (s bs rest : List Nat),
      s.length ≤ opts.max_string_size → s.length < 2 ^ 64 →
      StringVarint.write s = .ok bs →
      StringVarint.read opts (bs ++ rest) = .ok (s, rest)) ∧
    (∀ (N : Nat) (s bs rest : List Nat), StringFixed.write N s = .ok bs →
      StringFixed.read N (bs ++ rest) =
        .ok (s.take N ++ List.replicate (N - s.length) 0, rest)) ∧
    (∀ (N : Nat) (s bs rest : List Nat), s.length = N →
      StringFixed.write N s = .ok bs →
      StringFixed.read N (bs ++ rest) = .ok (s, rest)) ∧
    (∀ (opts : GlobalOptions) (v bs rest : List Nat),
      v.length ≤ opts.max_string_size → v.length < 2 ^ 64 →
      ByteArrayVarint.write v = .ok bs →
      ByteArrayVarint.read opts (bs ++ rest) = .ok (v, rest)) ∧
    (∀ (N : Nat) (v bs rest : List Nat), v.length = N →
      ByteArrayFixed.write N v = .ok bs →
      ByteArrayFixed.read N (bs ++ rest) = .ok (v, rest)) ∧
    (∀ (opts : GlobalOptions) (v bs rest : List Nat),
      v.length ≤ opts.max_string_size → v.length < 2 ^ 64 →
      ByteViewVarint.write v = .ok bs →
      ByteViewVarint.read opts (bs ++ rest) = .ok (v, rest)) ∧
    (∀ (α : Type) (c : Codec α), c.RT →
      ∀ (opts : GlobalOptions) (l : List α) (bs rest : List Nat),
        l.length ≤ opts.max_container_size → l.length < 2 ^ 64 →
        VecVarint.write c l = .ok bs →
        VecVarint.read opts c (bs ++ rest) = .ok (l, rest)) ∧
    (∀ (α : Type) (c : Codec α), c.RT →
      ∀ (N : Nat) (l : List α) (bs rest : List Nat), l.length = N →
        VecFixed.write N c l = .ok bs →
        VecFixed.read N c (bs ++ rest) = .ok (l, rest)) ∧
    (∀ (κ ν : Type) [LinearOrder κ] (ck : Codec κ) (cv : Codec ν),
      ck.RT → cv.RT →
      ∀ (opts : GlobalOptions) (m : List (κ × ν)) (bs rest : List Nat),
        SortedKeys m → m.length ≤ opts.max_container_size →
        m.length < 2 ^ 64 → MapVarint.write ck cv m = .ok bs →
        MapVarint.read opts ck cv (bs ++ rest) = .ok (m, rest)) ∧
    (∀ (κ ν : Type) [LinearOrder κ] (ck : Codec κ) (cv : Codec ν),
      ck.RT → cv.RT →
      ∀ (N : Nat) (m : List (κ × ν)) (bs rest : List Nat), SortedKeys m →
        m.length = N → MapFixed.write N ck cv m = .ok bs →
        MapFixed.read N ck cv (bs ++ rest) = .ok (m, rest)) ∧
    (∀ (α β : Type) (ca : Codec α) (cb : Codec β), ca.RT → cb.RT →
      (seqCodec ca cb).RT) ∧
    (∀ (α : Type) (c : Codec α), c.RT →
      ∀ (o init : Opt α) (bs rest : List Nat), OptionVarint.write c o = .ok bs →
        OptionVarint.read c init (bs ++ rest) =
          .ok (⟨o.has_value, if o.has_value then o.value else init.value⟩,
            rest)) ∧
    (∀ (k : Nat) (T : Fin k → Type) (C : ∀ i, Codec (T i)), k ≤ 2 ^ 64 →
      ∀ (v : Σ i, T i) (bs rest : List Nat), (C v.1).RT →
        VariantVarint.write C v = .ok bs →
        VariantVarint.read C (bs ++ rest) = .ok (v, rest)) ∧
    (∀ (α : Type) (c : Codec α), c.RT → (PValCodec c).RT) := by
  refine ⟨?_, ?_, ?_, ?_, ?_, ?_, ?_, ?_, ?_, ?_, ?_, ?_, ?_, ?_, ?_, ?_,
    ?_, ?_, ?_, ?_⟩
  · intro b bs rest hw
    unfold BoolFixed.write at hw
    cases hw
    exact BoolFixed_rt b rest
  · intro opts size v bs rest hv hw
    have h := UIntFixed_rt opts size v hv rest
    rw [hw] at h
    exact h
  · intro opts size x bs rest hsz hlo hhi hw
    have h := IntFixed_rt opts size x hsz hlo hhi rest
    rw [hw] at h
    exact h
  · intro size rep bs rest hlen hw
    unfold FloatFixed.write at hw
    cases hw
    exact FloatFixed_rt size rep hlen rest
  · intro w v bs rest hw64 hv hw
    unfold UIntVarint.write at hw
    cases hw
    exact UIntVarint_rt w v hw64 hv rest
  · intro w x bs rest hw0 hw64 hlo hhi hw
    unfold IntVarint.write at hw
    cases hw
    exact IntVarint_rt w x hw0 hw64 hlo hhi rest
  · intro opts s bs rest hmax h64 hw
    unfold StringVarint.write at hw
    cases hw
    exact StringVarint_rt opts s hmax h64 rest
  · intro N s bs rest hw
    unfold StringFixed.write at hw
    cases hw
    exact StringFixed_read_write N s rest
  · intro N s bs rest hN hw
    unfold StringFixed.write at hw
    cases hw
    have h1 : s.take N = s := by
      rw [← hN]
      exact List.take_length s
    have h2 : N - s.length = 0 := by omega
    rw [h1, h2, List.replicate_zero, List.append_nil]
    unfold StringFixed.read
    exact readBytes_append' s rest hN
  · intro opts v bs rest hmax h64 hw
    unfold ByteArrayVarint.write at hw
    cases hw
    exact ByteArrayVarint_rt opts v hmax h64 rest
  · intro N v bs rest hN hw
    have h := (ByteArrayFixed_rt N v hN rest).2
    have hw2 := (ByteArrayFixed_rt N v hN rest).1
    rw [hw2] at hw
    cases hw
    exact h
  · intro opts v bs rest hmax h64 hw
    unfold ByteViewVarint.write at hw
    cases hw
    exact ByteViewVarint_rt opts v hmax h64 rest
  · intro α c hc opts l bs rest hmax h64 hw
    exact VecVarint_rt opts c hc l bs hmax h64 rest hw
  · intro α c hc N l bs rest hN hw
    exact VecFixed_rt N c hc l bs hN rest hw
  · intro κ ν inst ck cv hk hv opts m bs rest hsort hmax h64 hw
    exact MapVarint_rt opts ck cv hk hv m hsort bs hmax h64 rest hw
  · intro κ ν inst ck cv hk hv N m bs rest hsort hN hw
    exact MapFixed_rt N ck cv hk hv m hsort bs hN rest hw
  · intro α β ca cb ha hb
    exact seqCodec_rt ca cb ha hb
  · intro α c hc o init bs rest hw
    exact OptionVarint_rt c hc o init bs rest hw
  · intro k T C hk64 v bs rest hC hw
    exact VariantVarint_rt C hk64 v bs rest hC hw
  · intro α c hc
    exact PValCodec_rt c hc

/-- C1 witness: one concrete round trip per family of the amended claim,
each obtained by applying C1_roundtrip and discharging its hypotheses at the
concrete input. -/
theorem C1_roundtrip_witness :
    BoolFixed.read ([1] ++ []) = .ok (true, []) ∧
    UIntFixed.read GlobalOptions.default 2 ([1, 44] ++ []) = .ok (300, []) ∧
    IntFixed.read GlobalOptions.default 1 ([255] ++ []) = .ok (-1, []) ∧
    FloatFixed.read 4 ([1, 2, 3, 4] ++ []) = .ok ([1, 2, 3, 4], []) ∧
    UIntVarint.read 32 ([5] ++ []) = .ok (5, []) ∧
    IntVarint.read 32 ([1] ++ []) = .ok (-1, []) ∧
    StringVarint.read GlobalOptions.default ([2, 104, 105] ++ []) =
      .ok ([104, 105], []) ∧
    StringFixed.read 4 ([104, 105, 0, 0] ++ []) = .ok ([104, 105, 0, 0], []) ∧
    StringFixed.read 2 ([104, 105] ++ []) = .ok ([104, 105], []) ∧
    ByteArrayVarint.read GlobalOptions.default ([1, 7] ++ []) = .ok ([7], []) ∧
    ByteArrayFixed.read 2 ([7, 8] ++ []) = .ok ([7, 8], []) ∧
    ByteViewVarint.read GlobalOptions.default ([1, 9] ++ []) = .ok ([9], []) ∧
    VecVarint.read GlobalOptions.default boolCodec ([2, 1, 0] ++ []) =
      .ok ([true, false], []) ∧
    VecFixed.read 1 boolCodec ([1] ++ []) = .ok ([true], []) ∧
    MapVarint.read GlobalOptions.default boolCodec boolCodec
      ([2, 0, 1, 1, 0] ++ []) = .ok ([(false, true), (true, false)], []) ∧
    MapFixed.read 2 boolCodec boolCodec ([0, 1, 1, 0] ++ []) =
      .ok ([(false, true), (true, false)], []) ∧
    (seqCodec boolCodec boolCodec).read ([1, 0] ++ []) =
      .ok ((true, false), []) ∧
    OptionVarint.read boolCodec ⟨false, false⟩ ([1, 1] ++ []) =
      .ok (⟨true, true⟩, []) ∧
    VariantVarint.read (fun _ : Fin 2 => boolCodec) ([1, 1] ++ []) =
      .ok (⟨1, true⟩, []) ∧
    (PValCodec boolCodec).read ([1] ++ []) = .ok (⟨true⟩, []) := by
  obtain ⟨hbool, hufix, hifix, hfloat, huvar, hivar, hsvar, hsfixg, hsfixe,
    hbav, hbaf, hbvv, hvecv, hvecf, hmapv, hmapf, hseq, hopt, hvar, hpval⟩ :=
      C1_roundtrip
  refine ⟨?_, ?_, ?_, ?_, ?_, ?_, ?_, ?_, ?_, ?_, ?_, ?_, ?_, ?_, ?_, ?_,
    ?_, ?_, ?_, ?_⟩
  · exact hbool true [1] [] rfl
  · exact hufix GlobalOptions.default 2 300 [1, 44] [] (by norm_num) rfl
  · exact hifix GlobalOptions.default 1 (-1) [255] [] (by norm_num)
      (by norm_num) (by norm_num) rfl
  · exact hfloat 4 [1, 2, 3, 4] [1, 2, 3, 4] [] rfl rfl
  · refine huvar 32 5 [5] [] (by norm_num) (by norm_num) ?_
    unfold UIntVarint.write
    rw [write_uleb128_small (by norm_num)]
  · refine hivar 32 (-1) [1] [] (by norm_num) (by norm_num) (by norm_num)
      (by norm_num) ?_
    unfold IntVarint.write
    rw [show zigzag_encode (-1) = 1 from by decide,
      write_uleb128_small (by norm_num)]
  · refine hsvar GlobalOptions.default [104, 105] [2, 104, 105] []
      (by decide) (by norm_num) ?_
    unfold StringVarint.write
    rw [show write_uleb128 ([104, 105] : List Nat).length = [2] from by
      rw [write_uleb128_small (by decide)]
      rfl]
    rfl
  · have h := hsfixg 4 [104, 105] [104, 105, 0, 0] [] rfl
    simpa using h
  · exact hsfixe 2 [104, 105] [104, 105] [] rfl rfl
  · refine hbav GlobalOptions.default [7] [1, 7] [] (by decide) (by norm_num) ?_
    unfold ByteArrayVarint.write
    rw [show write_uleb128 ([7] : List Nat).length = [1] from by
      rw [write_uleb128_small (by decide)]
      rfl]
    rfl
  · exact hbaf 2 [7, 8] [7, 8] [] rfl rfl
  · refine hbvv GlobalOptions.default [9] [1, 9] [] (by decide) (by norm_num) ?_
    unfold ByteViewVarint.write
    rw [show write_uleb128 ([9] : List Nat).length = [1] from by
      rw [write_uleb128_small (by decide)]
      rfl]
    rfl
  · refine hvecv Bool boolCodec boolCodec_rt GlobalOptions.default
      [true, false] [2, 1, 0] [] (by decide) (by norm_num) ?_
    unfold VecVarint.write
    rw [show writeElems boolCodec.write [true, false] = .ok [1, 0] from rfl]
    dsimp only
    rw [show ([true, false] : List Bool).length = 2 from rfl,
      write_uleb128_small (by norm_num)]
    rfl
  · exact hvecf Bool boolCodec boolCodec_rt 1 [true] [1] [] rfl rfl
  · refine hmapv Bool Bool boolCodec boolCodec boolCodec_rt boolCodec_rt
      GlobalOptions.default [(false, true), (true, false)] [2, 0, 1, 1, 0] []
      (by unfold SortedKeys; decide) (by decide) (by norm_num) ?_
    unfold MapVarint.write
    rw [show writePairs boolCodec boolCodec [(false, true), (true, false)] =
      .ok [0, 1, 1, 0] from rfl]
    dsimp only
    rw [show ([(false, true), (true, false)] : List (Bool × Bool)).length = 2
      from rfl, write_uleb128_small (by norm_num)]
    rfl
  · exact hmapf Bool Bool boolCodec boolCodec boolCodec_rt boolCodec_rt 2
      [(false, true), (true, false)] [0, 1, 1, 0] []
      (by unfold SortedKeys; decide) rfl rfl
  · exact hseq Bool Bool boolCodec boolCodec boolCodec_rt boolCodec_rt
      (true, false) [1, 0] [] rfl
  · refine hopt Bool boolCodec boolCodec_rt ⟨true, true⟩ ⟨false, false⟩
      [1, 1] [] ?_
    unfold OptionVarint.write
    dsimp only
    rw [if_pos rfl, show boolCodec.write true = .ok [1] from rfl]
    dsimp only
    rw [write_uleb128_small (by norm_num)]
    rfl
  · refine hvar 2 (fun _ => Bool) (fun _ => boolCodec) (by norm_num)
      ⟨1, true⟩ [1, 1] [] boolCodec_rt ?_
    unfold VariantVarint.write
    dsimp only
    rw [show boolCodec.write true = .ok [1] from rfl]
    rw [write_uleb128_small (by norm_num)]
    rfl
  · exact hpval Bool boolCodec boolCodec_rt ⟨true⟩ [1] [] rfl

end ByteSchema
